import Mathlib

/-!
# Shallow embedding of the bitcask-engine-rs storage engine

This file embeds the core of the `bitcask-engine-rs` repository in Lean 4:
the on-disk record codec (`src/log_entry.rs`), the per-file operations
(`src/log_file.rs`), the file set (`src/disk_logs.rs`), the in-memory index
(`src/memory_index.rs`), the storage engine (`src/storage.rs`) and the
compaction pipeline (`src/bitcask.rs` / `src/storage.rs`).

Modelling conventions:
* Byte sequences (`Key`, `Value`, file contents) are `List Nat`; the Rust
  `u8` values embed into `Nat`.  Machine-integer widths are made explicit
  with `% 2 ^ 32` / `% 2 ^ 64` where the Rust code relies on them.
* The filesystem is an association list from paths to byte contents.  A path
  `<dir>/<id>.bitcask` is modelled as the pair `(dir, id)`; the extension
  filter and the decimal file-stem parse of the Rust code are resolved by
  this representation.
* Fallible Rust code returns `Except Fail _`.  `Fail.panicked` models a Rust
  panic (`unwrap`/`panic!`), `Fail.err` models a returned `BitCaskError`.
* A possible I/O failure of an append (`write_all`/`flush`) is modelled by
  an explicit `fault : Option Nat` argument threaded along the write path:
  `none` means the write succeeds, `some j` means it fails after `j` bytes
  reached the file.
-/

/-- Byte type alias: a Rust `u8` embedded in `Nat`. -/
abbrev Byte := Nat

/-- Model of `type Key = Vec<u8>` from `src/bitcask.rs`. -/
abbrev Key := List Byte

/-- Model of `type Value = Vec<u8>` from `src/bitcask.rs`. -/
abbrev Value := List Byte

/-- Model of `type FileId = usize` from `src/bitcask.rs`. -/
abbrev FileId := Nat

/-- The error enumeration of `src/error.rs`.  `ioError` stands for
`IoError(std::io::Error)` (the wrapped cause is not modelled),
`corruptedData` for `CorruptedData(String)`. -/
inductive BitCaskError where
  | ioError : BitCaskError
  | corruptedData : String → BitCaskError
  | unexpectedError : BitCaskError
  | keyExists : BitCaskError
  | keyNotFound : BitCaskError
deriving DecidableEq, Repr

/-- Outcome of running a piece of Rust code: either a returned error
(`err`) or a panic (`panicked`), as opposed to normal termination. -/
inductive Fail where
  | panicked : String → Fail
  | err : BitCaskError → Fail
deriving DecidableEq, Repr

/-- Result alias for fallible engine operations. -/
abbrev Res (α : Type) := Except Fail α

deriving instance DecidableEq for Except

/-- Returns `true` exactly when a result is a Rust panic. -/
def isPanicked {α : Type} : Res α → Bool
  | .error (.panicked _) => true
  | _ => false

/-- Returns `true` exactly when a result is a `CorruptedData` error. -/
def isCorruptedErr {α : Type} : Res α → Bool
  | .error (.err (.corruptedData _)) => true
  | _ => false

/-! ## Big-endian integer encoding (`to_be_bytes` / `from_be_bytes`) -/

/-- Big-endian byte encoding of `n` on `width` bytes, the model of
`u32::to_be_bytes` (`width = 4`) and `u64::to_be_bytes` (`width = 8`). -/
def beBytes : Nat → Nat → List Byte
  | 0, _ => []
  | width + 1, n => beBytes width (n / 256) ++ [n % 256]

/-- Big-endian decoding, the model of `u32::from_be_bytes` and
`u64::from_be_bytes`. -/
def fromBEBytes (bytes : List Byte) : Nat :=
  bytes.foldl (fun acc b => acc * 256 + b) 0

/-! ## CRC-32/CKSUM (`const CRC32: Crc<u32> = Crc::new(&CRC_32_CKSUM)`)

Parameters of CRC-32/CKSUM: polynomial `0x04C11DB3`, initial value `0`,
no reflection, final xor `0xFFFFFFFF`. -/

/-- One shift step of the bitwise (non-reflected) CRC-32 computation. -/
def crcStep (crc : Nat) : Nat :=
  let shifted := crc * 2 % 2 ^ 32
  if crc.testBit 31 then shifted ^^^ 0x04C11DB3 else shifted

/-- Fold one input byte into the CRC state (eight shift steps). -/
def crcByte (crc b : Nat) : Nat :=
  crcStep (crcStep (crcStep (crcStep (crcStep (crcStep (crcStep (crcStep
    (crc ^^^ b % 256 * 2 ^ 24))))))))

/-- Model of `CRC32.checksum(bytes)` for the CRC-32/CKSUM algorithm. -/
def crc32_cksum (bytes : List Byte) : Nat :=
  (bytes.foldl crcByte 0) ^^^ 0xFFFFFFFF

/-! ## `src/log_entry.rs`: the record codec -/

/-- Model of `DiskLogEntry`: the in-memory form of one on-disk record.
`value = none` marks a tombstone (logical delete). -/
structure DiskLogEntry where
  check_sum : Nat
  key : Key
  value : Option Value
deriving DecidableEq, Repr

namespace DiskLogEntry

/-- Model of `DiskLogEntry::new_entry`. -/
def new_entry (key : Key) (value : Value) : DiskLogEntry :=
  { check_sum := crc32_cksum value, key := key, value := some value }

/-- Model of `DiskLogEntry::new_tombstone`. -/
def new_tombstone (key : Key) : DiskLogEntry :=
  { check_sum := 0, key := key, value := none }

/-- Model of `DiskLogEntry::is_tombstone`. -/
def is_tombstone (e : DiskLogEntry) : Bool :=
  e.value.isNone

/-- Model of `DiskLogEntry::is_valid`: with a value present, the stored checksum must
equal the CRC of the value; a tombstone is always valid. -/
def is_valid (e : DiskLogEntry) : Bool :=
  match e.value with
  | some v => e.check_sum == crc32_cksum v
  | none => true

/-- Model of `DiskLogEntry::check_sum_byte_size` (4 bytes of CRC). -/
def check_sum_byte_size : Nat := 4

/-- Model of `DiskLogEntry::key_byte_size`. -/
def key_byte_size (e : DiskLogEntry) : Nat :=
  e.key.length

/-- Model of `DiskLogEntry::value_byte_size` (0 for a tombstone). -/
def value_byte_size (e : DiskLogEntry) : Nat :=
  match e.value with
  | some v => v.length
  | none => 0

/-- Model of `DiskLogEntry::size_byte_len`: `ByteSize::BITS / 8 = 8` bytes per size
field (`ByteSize = u64`). -/
def size_byte_len : Nat := 8

/-- Model of `DiskLogEntry::value_byte_offset`: offset of the value payload inside
the serialized record. -/
def value_byte_offset (e : DiskLogEntry) : Nat :=
  check_sum_byte_size + size_byte_len * 2 + e.key_byte_size

/-- Model of `DiskLogEntry::total_byte_size`. -/
def total_byte_size (e : DiskLogEntry) : Nat :=
  check_sum_byte_size + size_byte_len * 2 + e.key_byte_size + e.value_byte_size

/-- Model of `Serialize for DiskLogEntry`: checksum, key size, value size, key bytes,
then value bytes (absent for a tombstone), all big-endian.  The model
returns the written bytes; write errors are modelled at the append layer. -/
def serializeBytes (e : DiskLogEntry) : List Byte :=
  beBytes 4 e.check_sum ++ beBytes 8 e.key_byte_size ++ beBytes 8 e.value_byte_size
    ++ e.key ++ (match e.value with | some v => v | none => [])

end DiskLogEntry

/-- Model of `Read::read_exact` on a byte stream: returns the requested bytes and the
rest of the stream, or the `UnexpectedEof` I/O error (wrapped into
`BitCaskError::IoError` by the `?` conversion) when the stream is too
short. -/
def readExact (n : Nat) (buf : List Byte) : Res (List Byte × List Byte) :=
  if n ≤ buf.length then .ok (buf.take n, buf.drop n)
  else .error (.err .ioError)

namespace DiskLogEntry

/-- Model of `Deserialize for DiskLogEntry`: read checksum, key size, value size, key
and (if `value_size > 0`) value, then validate the checksum.  Returns the
entry together with the unread rest of the stream. -/
def deserialize (buf : List Byte) : Res (DiskLogEntry × List Byte) :=
  match readExact 4 buf with
  | .error e => .error e
  | .ok (check_sum_buf, buf1) =>
    let check_sum := fromBEBytes check_sum_buf
    match readExact 8 buf1 with
    | .error e => .error e
    | .ok (key_size_buf, buf2) =>
      let key_size := fromBEBytes key_size_buf
      match readExact 8 buf2 with
      | .error e => .error e
      | .ok (value_size_buf, buf3) =>
        let value_size := fromBEBytes value_size_buf
        match readExact key_size buf3 with
        | .error e => .error e
        | .ok (key, buf4) =>
          if 0 < value_size then
            match readExact value_size buf4 with
            | .error e => .error e
            | .ok (value_buf, buf5) =>
              let entry : DiskLogEntry :=
                { check_sum := check_sum, key := key, value := some value_buf }
              if entry.is_valid then .ok (entry, buf5)
              else .error (.err (.corruptedData "invalid checksum"))
          else
            let entry : DiskLogEntry :=
              { check_sum := check_sum, key := key, value := none }
            if entry.is_valid then .ok (entry, buf4)
            else .error (.err (.corruptedData "invalid checksum"))

end DiskLogEntry

/-! ## `src/memory_index.rs`: the in-memory index -/

/-- Model of `MemIndexEntry`: where a value lives on disk. -/
structure MemIndexEntry where
  file_id : Nat
  value_offset : Nat
  value_size : Nat
deriving DecidableEq, Repr

/-- Model of `MemIndexEntry::is_tombstone`: a zero-sized value marks a delete. -/
def MemIndexEntry.is_tombstone (e : MemIndexEntry) : Bool :=
  e.value_size == 0

/-- Bytewise (lexicographic) strict order on keys, the order of
`BTreeMap<Vec<u8>, _>`. -/
def keyLt : Key → Key → Bool
  | [], [] => false
  | [], _ :: _ => true
  | _ :: _, [] => false
  | a :: as, b :: bs => a < b || (a == b && keyLt as bs)

/-- Model of `MemIndexStorage`: the `BTreeMap<Key, MemIndexEntry>` is modelled as an
association list kept sorted by `keyLt` (every state built by the engine's
own operations from `new` is sorted and duplicate-free). -/
def MemIndexStorage := List (Key × MemIndexEntry)
deriving DecidableEq, Repr

namespace MemIndexStorage

/-- Model of `MemIndexStorage::new`. -/
def new : MemIndexStorage := []

/-- Model of `MemIndexStorage::get` (`BTreeMap::get`). -/
def get (m : MemIndexStorage) (key : Key) : Option MemIndexEntry :=
  match m with
  | [] => none
  | (k, e) :: rest => if key = k then some e else get rest key

/-- Model of `MemIndexStorage::put` (`BTreeMap::insert`): replace the binding of an
existing key, otherwise insert at the key's sorted position. -/
def put (m : MemIndexStorage) (key : Key) (entry : MemIndexEntry) :
    MemIndexStorage :=
  match m with
  | [] => [(key, entry)]
  | (k, e) :: rest =>
    if key = k then (key, entry) :: rest
    else if keyLt key k then (key, entry) :: (k, e) :: rest
    else (k, e) :: put rest key entry

/-- Model of `MemIndexStorage::delete` (`BTreeMap::remove`). -/
def delete (m : MemIndexStorage) (key : Key) : MemIndexStorage :=
  match m with
  | [] => []
  | (k, e) :: rest => if key = k then rest else (k, e) :: delete rest key

/-- Model of `MemIndexStorage::size` (`BTreeMap::len`), tombstones included. -/
def size (m : MemIndexStorage) : Nat :=
  m.length

/-- Consuming iteration (`MemIndexStorage::into_iter`) yields the pairs in
ascending key order: for the sorted association list this is the list
itself. -/
def toEntryList (m : MemIndexStorage) : List (Key × MemIndexEntry) := m

end MemIndexStorage

/-! ## The filesystem model

A path `<dir>/<id>.bitcask` is the pair `(dir, id)`; the filesystem is an
association list from paths to file contents, in creation order. -/

/-- A file path `(directory, file stem)`. -/
abbrev FPath := Nat × Nat

/-- The modelled filesystem. -/
abbrev FS := List (FPath × List Byte)

/-- Look a path up in the filesystem. -/
def fsLookup (fs : FS) (p : FPath) : Option (List Byte) :=
  match fs with
  | [] => none
  | (q, c) :: rest => if p = q then some c else fsLookup rest p

/-- The contents of the file at `p` (an open handle's view; every path read
by the engine exists). -/
def fsRead (fs : FS) (p : FPath) : List Byte :=
  (fsLookup fs p).getD []

/-- Write (replace) the contents at `p`, creating the entry at the end of
the listing when the path is new. -/
def fsSet (fs : FS) (p : FPath) (c : List Byte) : FS :=
  match fs with
  | [] => [(p, c)]
  | (q, c') :: rest => if p = q then (p, c) :: rest else (q, c') :: fsSet rest p c

/-- Model of `read_dir`: the paths of the files inside directory `d`, in the
filesystem's listing order (the enumeration order of the directory). -/
def fsListDir (fs : FS) (d : Nat) : List FPath :=
  fs.filterMap (fun pc => if pc.1.1 = d then some pc.1 else none)

/-! ## `src/log_file.rs`: one numbered append-only log file -/

/-- Model of `DiskLogFile`: a numbered log file (`file_id`, its path, and an open
handle onto the filesystem). -/
structure DiskLogFile where
  file_id : Nat
  path : FPath
deriving DecidableEq, Repr

namespace DiskLogFile

/-- Model of `DiskLogFile::MAX_FILE_SIZE`: 1 GiB rollover threshold. -/
def MAX_FILE_SIZE : Nat := 1024 * 1024 * 1024

/-- Model of `DiskLogFile::new`: open `<dir>/<id>.bitcask` with create+append+read.
`create` keeps existing contents (no truncation). -/
def new (fs : FS) (data_dir : Nat) (file_id : FileId) : FS × DiskLogFile :=
  let path : FPath := (data_dir, file_id)
  (match fsLookup fs path with
   | some _ => fs
   | none => fsSet fs path [], { file_id := file_id, path := path })

end DiskLogFile

/-- The loop body of `DiskLogFile::populate_mem_index` (the recovery scan):
starting at `cursor`, repeatedly deserialize a record from the unread rest
of the file; a tombstone removes its key from the index, any other record
maps its key to the record's value location.  The loop ends when the cursor
reaches the file size, i.e. when the unread rest is empty.

`fuel` makes the recursion structural; the caller passes
`remaining.length + 1`, which exceeds the iteration count because every
parsed record consumes at least its 20 header bytes. -/
def scanFileAux (file_id : FileId) :
    Nat → Nat → List Byte → MemIndexStorage → Res MemIndexStorage
  | 0, _, _, _ => .error (.panicked "recovery scan: out of fuel (unreachable)")
  | _ + 1, _, [], mem => .ok mem
  | fuel + 1, cursor, remaining@(_ :: _), mem =>
    match DiskLogEntry.deserialize remaining with
    | .error e => .error e
    | .ok (entry, rest) =>
      let entry_size := entry.total_byte_size
      let mem' :=
        if entry.is_tombstone then mem.delete entry.key
        else mem.put entry.key
          { file_id := file_id
            value_offset := cursor + entry.value_byte_offset
            value_size := entry.value_byte_size }
      scanFileAux file_id fuel (cursor + entry_size) rest mem'

namespace DiskLogFile

/-- Model of `DiskLogFile::populate_mem_index`: recovery-scan the whole file into the
index. -/
def populate_mem_index (fs : FS) (f : DiskLogFile) (mem : MemIndexStorage) :
    Res MemIndexStorage :=
  let content := fsRead fs f.path
  scanFileAux f.file_id (content.length + 1) 0 content mem

/-- Model of `DiskLogFile::open` (named `open_file` here, `open` being a Lean
keyword): open an existing file read+append and recovery-scan it into the
index. -/
def open_file (fs : FS) (file_id : FileId) (path : FPath)
    (mem : MemIndexStorage) : Res (DiskLogFile × MemIndexStorage) :=
  match fsLookup fs path with
  | none => .error (.err .ioError)
  | some _ =>
    let f : DiskLogFile := { file_id := file_id, path := path }
    match populate_mem_index fs f mem with
    | .error e => .error e
    | .ok mem' => .ok (f, mem')

/-- Model of `DiskLogFile::append_new_entry`: seek to the end, remember the value
offset, serialize the record and flush.  `fault = some j` models a
write/flush I/O failure after `j` bytes reached the file. -/
def append_new_entry (fault : Option Nat) (fs : FS) (f : DiskLogFile)
    (entry : DiskLogEntry) : FS × Res Nat :=
  let content := fsRead fs f.path
  let value_offset := content.length + entry.value_byte_offset
  let bytes := entry.serializeBytes
  match fault with
  | some j => (fsSet fs f.path (content ++ bytes.take j), .error (.err .ioError))
  | none => (fsSet fs f.path (content ++ bytes), .ok value_offset)

end DiskLogFile

/-! ## `src/disk_logs.rs`: the file set -/

/-- Model of `DiskLogFileStorage`: the ordered collection of log files of one data
directory. -/
structure DiskLogFileStorage where
  files : List DiskLogFile
  data_dir : Nat
  current_file_size : Nat
  immutable : Bool
deriving DecidableEq, Repr

/-- Insert a file into a list sorted by ascending `file_id`. -/
def insertByFileId (f : DiskLogFile) : List DiskLogFile → List DiskLogFile
  | [] => [f]
  | g :: rest =>
    if f.file_id < g.file_id then f :: g :: rest else g :: insertByFileId f rest

/-- Model of `files.sort_by_key(file_id)` from `to_disk_log_files`. -/
def sortByFileId : List DiskLogFile → List DiskLogFile
  | [] => []
  | f :: rest => insertByFileId f (sortByFileId rest)

/-- The open-and-scan pass of `DiskLogFileStorage::to_disk_log_files`: open
every listed path as a log file, recovery-scanning each one into the index
**in the order of the list** (the sort by file id happens only afterwards).
The file stem of `<dir>/<id>.bitcask`, i.e. the second path component, is
the parsed file id. -/
def openLogFiles (fs : FS) :
    List FPath → MemIndexStorage → Res (List DiskLogFile × MemIndexStorage)
  | [], mem => .ok ([], mem)
  | p :: rest, mem =>
    match DiskLogFile.open_file fs p.2 p mem with
    | .error e => .error e
    | .ok (f, mem') =>
      match openLogFiles fs rest mem' with
      | .error e => .error e
      | .ok (files, mem'') => .ok (f :: files, mem'')

namespace DiskLogFileStorage

/-- Model of `DiskLogFileStorage::to_disk_log_files`: parse the file ids, open and
scan every file (in the enumeration order of `paths`), then sort the
resulting vector by file id. -/
def to_disk_log_files (fs : FS) (paths : List FPath) (mem : MemIndexStorage) :
    Res (List DiskLogFile × MemIndexStorage) :=
  match openLogFiles fs paths mem with
  | .error e => .error e
  | .ok (files, mem') => .ok (sortByFileId files, mem')

/-- Model of `DiskLogFileStorage::new`: a fresh set containing the new empty file
id 0. -/
def new (fs : FS) (data_dir : Nat) : FS × DiskLogFileStorage :=
  let (fs', f0) := DiskLogFile.new fs data_dir 0
  (fs', { files := [f0], data_dir := data_dir, current_file_size := 0,
          immutable := false })

/-- Model of `DiskLogFileStorage::from_disk`: open every log file of the directory
(the `listing` is the `read_dir` enumeration, already filtered to
`*.bitcask` names that parse as a file id), populating the index; if no
file exists, start from scratch with file id 0; otherwise take the last
(sorted) file's on-disk length as `current_file_size`. -/
def from_disk (fs : FS) (data_dir : Nat) (listing : List FPath)
    (mem : MemIndexStorage) : Res (FS × DiskLogFileStorage × MemIndexStorage) :=
  match to_disk_log_files fs listing mem with
  | .error e => .error e
  | .ok (files, mem') =>
    match files.getLast? with
    | none =>
      let (fs', dl) := DiskLogFileStorage.new fs data_dir
      .ok (fs', dl, mem')
    | some lastf =>
      let current_file_size := (fsRead fs lastf.path).length
      .ok (fs, { files := files, data_dir := data_dir,
                 current_file_size := current_file_size, immutable := false },
           mem')

/-- Model of `DiskLogFileStorage::immutable_initialization`: open the given files
(scanning them into the index), take the first file's parent directory as
`data_dir`, and mark the set immutable (`first().unwrap()` panics on an
empty list). -/
def immutable_initialization (fs : FS) (immutable_files : List FPath)
    (mem : MemIndexStorage) : Res (DiskLogFileStorage × MemIndexStorage) :=
  match to_disk_log_files fs immutable_files mem with
  | .error e => .error e
  | .ok (files, mem') =>
    match files with
    | [] => .error (.panicked "immutable_initialization: files.first() on empty vec")
    | f :: _ =>
      .ok ({ files := files, data_dir := f.path.1, current_file_size := 0,
             immutable := true }, mem')

/-- Model of `DiskLogFileStorage::get_file`: `self.files.get(file_id as usize)` — a
**positional** vector lookup by the file id, `unwrap`ped (panics when the
vector has no element at that index). -/
def get_file (st : DiskLogFileStorage) (file_id : FileId) : Res DiskLogFile :=
  match st.files.get? file_id with
  | some f => .ok f
  | none => .error (.panicked "get_file: files.get(file_id).unwrap() on None")

/-- Model of `DiskLogFileStorage::get`: positioned read of `value_size` bytes at
`value_offset` in the file found by `get_file`.  Reading past the end of
the file is the `UnexpectedEof` I/O error of `read_exact`. -/
def get (fs : FS) (st : DiskLogFileStorage) (mem_index_entry : MemIndexEntry) :
    Res Value :=
  match st.get_file mem_index_entry.file_id with
  | .error e => .error e
  | .ok disk_log_file =>
    let content := fsRead fs disk_log_file.path
    if mem_index_entry.value_offset + mem_index_entry.value_size ≤ content.length
    then .ok ((content.drop mem_index_entry.value_offset).take
                mem_index_entry.value_size)
    else .error (.err .ioError)

/-- Model of `DiskLogFileStorage::create_new_file`: create a file with
id = last id + 1 and push it (making it the active file). -/
def create_new_file (fs : FS) (st : DiskLogFileStorage) :
    FS × DiskLogFileStorage × Res Unit :=
  match st.files.getLast? with
  | none => (fs, st, .error (.panicked "create_new_file: files.last() on empty vec"))
  | some lastf =>
    let new_file_id := lastf.file_id + 1
    let (fs', new_file) := DiskLogFile.new fs st.data_dir new_file_id
    (fs', { st with files := st.files ++ [new_file] }, .ok ())

/-- Model of `DiskLogFileStorage::check_file_size`: consult the actual length of the
active file; when it exceeds `MAX_FILE_SIZE`, create a new file. -/
def check_file_size (fs : FS) (st : DiskLogFileStorage) :
    FS × DiskLogFileStorage × Res Unit :=
  match st.files.getLast? with
  | none => (fs, st, .error (.panicked "check_file_size: files.last() on empty vec"))
  | some lastf =>
    let file_size := (fsRead fs lastf.path).length
    if file_size > DiskLogFile.MAX_FILE_SIZE then create_new_file fs st
    else (fs, st, .ok ())

/-- Model of `DiskLogFileStorage::append_log_entry`: panic on an immutable set;
append the record to the active (last) file, add its byte size to
`current_file_size`, roll over via `check_file_size` when the tracked size
exceeds the threshold, and return the record's index entry. -/
def append_log_entry (fault : Option Nat) (fs : FS) (st : DiskLogFileStorage)
    (entry : DiskLogEntry) : FS × DiskLogFileStorage × Res MemIndexEntry :=
  if st.immutable then
    (fs, st, .error (.panicked "Cannot append to an immutable disk log"))
  else
    match st.files.getLast? with
    | none => (fs, st, .error (.panicked "current_file: files.last_mut() on empty vec"))
    | some disk_log_file =>
      let file_id := disk_log_file.file_id
      match DiskLogFile.append_new_entry fault fs disk_log_file entry with
      | (fs', .error e) => (fs', st, .error e)
      | (fs', .ok value_offset) =>
        let st' := { st with
          current_file_size := st.current_file_size + entry.total_byte_size }
        let (fs'', st'', r) :=
          if st'.current_file_size > DiskLogFile.MAX_FILE_SIZE then
            check_file_size fs' st'
          else (fs', st', .ok ())
        match r with
        | .error e => (fs'', st'', .error e)
        | .ok () =>
          (fs'', st'',
           .ok { file_id := file_id, value_offset := value_offset,
                 value_size := entry.value_byte_size })

/-- Model of `DiskLogFileStorage::put`: append a value record. -/
def put (fault : Option Nat) (fs : FS) (st : DiskLogFileStorage) (key : Key)
    (value : Value) : FS × DiskLogFileStorage × Res MemIndexEntry :=
  append_log_entry fault fs st (DiskLogEntry.new_entry key value)

/-- Model of `DiskLogFileStorage::delete`: append a tombstone record. -/
def delete (fault : Option Nat) (fs : FS) (st : DiskLogFileStorage) (key : Key) :
    FS × DiskLogFileStorage × Res MemIndexEntry :=
  append_log_entry fault fs st (DiskLogEntry.new_tombstone key)

/-- Model of `DiskLogFileStorage::get_immutable_files`: the paths of all files other
than the one with the last file's id. -/
def get_immutable_files (st : DiskLogFileStorage) : List FPath :=
  match st.files.getLast? with
  | none => []
  | some lastf =>
    (st.files.filter (fun f => f.file_id ≠ lastf.file_id)).map (fun f => f.path)

/-- Model of `DiskLogFileStorage::copy_files_to_new_dir`: copy every file of the set
whose path is not among `immutable_files` into the new directory, keeping
its file name. -/
def copy_files_to_new_dir (fs : FS) (st : DiskLogFileStorage)
    (immutable_files : List FPath) (new_log_file_path : Nat) : FS :=
  (st.files.filter (fun f => ¬ immutable_files.contains f.path)).foldl
    (fun acc f => fsSet acc (new_log_file_path, f.path.2) (fsRead acc f.path)) fs

end DiskLogFileStorage

/-! ## `src/storage.rs` and `src/bitcask.rs`: the storage engine -/

/-- Model of `PutOption` (`src/bitcask.rs`): the `nx`/`xx` flags of a put. -/
structure PutOption where
  nx : Bool
  xx : Bool
deriving DecidableEq, Repr

/-- Model of `LogStorage`: the engine owning one file set and one index. -/
structure LogStorage where
  data_dir : Nat
  disk_log : DiskLogFileStorage
  mem_index : MemIndexStorage
deriving DecidableEq, Repr

namespace LogStorage

/-- Model of `LogStorage::new`: create the data directory if missing and recover the
file set and index from disk (`listing` is the directory enumeration). -/
def new (fs : FS) (data_dir : Nat) (listing : List FPath) :
    Res (FS × LogStorage) :=
  match DiskLogFileStorage.from_disk fs data_dir listing MemIndexStorage.new with
  | .error e => .error e
  | .ok (fs', disk_log, mem_index) =>
    .ok (fs', { data_dir := data_dir, disk_log := disk_log,
                mem_index := mem_index })

/-- Model of `LogStorage::get`: index lookup; absent or tombstone gives `none`; a
read-time disk error is logged and surfaced as `none`; a panic inside the
disk read propagates. -/
def get (fs : FS) (st : LogStorage) (key : Key) : Res (Option Value) :=
  match st.mem_index.get key with
  | none => .ok none
  | some mem_index_entry =>
    if mem_index_entry.is_tombstone then .ok none
    else
      match DiskLogFileStorage.get fs st.disk_log mem_index_entry with
      | .ok value => .ok (some value)
      | .error (.panicked msg) => .error (.panicked msg)
      | .error (.err _) => .ok none

/-- Model of `LogStorage::put_without_option`: disk append first, index update only
after a successful append. -/
def put_without_option (fault : Option Nat) (fs : FS) (st : LogStorage)
    (key : Key) (value : Value) : FS × LogStorage × Res Unit :=
  match DiskLogFileStorage.put fault fs st.disk_log key value with
  | (fs', dl', .error e) => (fs', { st with disk_log := dl' }, .error e)
  | (fs', dl', .ok index_entry) =>
    let st' := { st with disk_log := dl' }
    (fs', { st' with mem_index := st.mem_index.put key index_entry }, .ok ())

/-- Model of `LogStorage::put_nx`: fail with `KeyExists` when the index holds a
non-tombstone entry, otherwise append and update the index. -/
def put_nx (fault : Option Nat) (fs : FS) (st : LogStorage) (key : Key)
    (value : Value) : FS × LogStorage × Res Unit :=
  match st.mem_index.get key with
  | some index_entry =>
    if ¬ index_entry.is_tombstone then (fs, st, .error (.err .keyExists))
    else put_without_option fault fs st key value
  | none => put_without_option fault fs st key value

/-- Model of `LogStorage::put_xx`: fail with `KeyNotFound` when the index holds no
entry or a tombstone entry, otherwise append and update the index. -/
def put_xx (fault : Option Nat) (fs : FS) (st : LogStorage) (key : Key)
    (value : Value) : FS × LogStorage × Res Unit :=
  match st.mem_index.get key with
  | some index_entry =>
    if index_entry.is_tombstone then (fs, st, .error (.err .keyNotFound))
    else put_without_option fault fs st key value
  | none => (fs, st, .error (.err .keyNotFound))

/-- Model of `LogStorage::put`: dispatch on the option; `nx` is tested before `xx`. -/
def put (fault : Option Nat) (fs : FS) (st : LogStorage) (key : Key)
    (value : Value) (option : Option PutOption) : FS × LogStorage × Res Unit :=
  match option with
  | some option =>
    if option.nx then put_nx fault fs st key value
    else if option.xx then put_xx fault fs st key value
    else put_without_option fault fs st key value
  | none => put_without_option fault fs st key value

/-- Model of `LogStorage::delete`: append a tombstone, then set the index to the
returned (size 0) location. -/
def delete (fault : Option Nat) (fs : FS) (st : LogStorage) (key : Key) :
    FS × LogStorage × Res Unit :=
  match DiskLogFileStorage.delete fault fs st.disk_log key with
  | (fs', dl', .error e) => (fs', { st with disk_log := dl' }, .error e)
  | (fs', dl', .ok index_entry) =>
    let st' := { st with disk_log := dl' }
    (fs', { st' with mem_index := st.mem_index.put key index_entry }, .ok ())

/-- Model of `LogStorage::size`: the index size, tombstones included. -/
def size (st : LogStorage) : Nat :=
  st.mem_index.size

/-- Model of `LogStorage::prepare_compaction`: create a new empty active file and
return the immutable files (everything before it). -/
def prepare_compaction (fs : FS) (st : LogStorage) :
    FS × LogStorage × Res (List FPath) :=
  match DiskLogFileStorage.create_new_file fs st.disk_log with
  | (fs', dl', .error e) => (fs', { st with disk_log := dl' }, .error e)
  | (fs', dl', .ok ()) =>
    (fs', { st with disk_log := dl' }, .ok dl'.get_immutable_files)

/-- Model of `LogStorage::finish_compaction`: copy the files outside the snapshot
into the new directory, then reopen the new directory from scratch and
switch the engine to it. -/
def finish_compaction (fs : FS) (st : LogStorage)
    (immutable_files : List FPath) (new_log_files_dir : Nat) :
    Res (FS × LogStorage) :=
  let fs1 := DiskLogFileStorage.copy_files_to_new_dir fs st.disk_log
    immutable_files new_log_files_dir
  match DiskLogFileStorage.from_disk fs1 new_log_files_dir
      (fsListDir fs1 new_log_files_dir) MemIndexStorage.new with
  | .error e => .error e
  | .ok (fs2, disk_log, mem_index) =>
    .ok (fs2, { data_dir := new_log_files_dir, disk_log := disk_log,
                mem_index := mem_index })

end LogStorage

/-- The iteration of `start_compaction` over the local index: read each
entry's value from the snapshot and append a fresh record to the new file
id 0. -/
def compactLoop (disk_logs : DiskLogFileStorage) (new_log_file : DiskLogFile) :
    FS → List (Key × MemIndexEntry) → Res FS
  | fs, [] => .ok fs
  | fs, (key, mem_index_entry) :: rest =>
    match DiskLogFileStorage.get fs disk_logs mem_index_entry with
    | .error e => .error e
    | .ok value =>
      match DiskLogFile.append_new_entry none fs new_log_file
          (DiskLogEntry.new_entry key value) with
      | (_, .error e) => .error e
      | (fs', .ok _) => compactLoop disk_logs new_log_file fs' rest

/-- Model of `start_compaction` (`src/storage.rs`): create the new directory and a
file id 0 in it, build a local index from the immutable files alone, and
write one fresh record per entry of that index (in ascending key order)
into the new file. -/
def start_compaction (fs : FS) (immutable_files : List FPath)
    (new_log_file_path : Nat) : Res FS :=
  let (fs1, new_log_file) := DiskLogFile.new fs new_log_file_path 0
  match DiskLogFileStorage.immutable_initialization fs1 immutable_files
      MemIndexStorage.new with
  | .error e => .error e
  | .ok (disk_logs, mem_index) =>
    compactLoop disk_logs new_log_file fs1 mem_index.toEntryList

/-- Model of `BitCask::compact_to_new_dir` (`src/bitcask.rs`): prepare under the
write lock, build without the lock, finish under the write lock. -/
def compact_to_new_dir (fs : FS) (st : LogStorage) (data_dir : Nat) :
    FS × LogStorage × Res Unit :=
  match LogStorage.prepare_compaction fs st with
  | (fs1, st1, .error e) => (fs1, st1, .error e)
  | (fs1, st1, .ok immutable_files) =>
    match start_compaction fs1 immutable_files data_dir with
    | .error e => (fs1, st1, .error e)
    | .ok fs2 =>
      match LogStorage.finish_compaction fs2 st1 immutable_files data_dir with
      | .error e => (fs2, st1, .error e)
      | .ok (fs3, st2) => (fs3, st2, .ok ())

/-! ## Sequences of public API operations -/

/-- One public engine operation. -/
inductive Op where
  | putOp : Key → Value → Option PutOption → Op
  | deleteOp : Key → Op
  | compactOp : Nat → Op
deriving DecidableEq, Repr

/-- Run one fault-free operation. -/
def runOp (fs : FS) (st : LogStorage) : Op → FS × LogStorage × Res Unit
  | .putOp k v o => LogStorage.put none fs st k v o
  | .deleteOp k => LogStorage.delete none fs st k
  | .compactOp d => compact_to_new_dir fs st d

/-- Run a sequence of fault-free operations, stopping at the first error or
panic. -/
def runOps (fs : FS) (st : LogStorage) : List Op → Res (FS × LogStorage)
  | [] => .ok (fs, st)
  | op :: rest =>
    match runOp fs st op with
    | (fs', st', .ok ()) => runOps fs' st' rest
    | (_, _, .error e) => .error e

/-! ## Auxiliary definitions used by the verification -/

/-- The engine holds a live (non-tombstone) index entry for `key`. -/
def hasLive (st : LogStorage) (key : Key) : Bool :=
  match st.mem_index.get key with
  | some e => ¬ e.is_tombstone
  | none => false

/-- The file ids of a file list are strictly increasing (the invariant
established by `from_disk`'s sort and preserved by `create_new_file`). -/
def idsStrictMono : List DiskLogFile → Bool
  | [] => true
  | [_] => true
  | f :: g :: rest => (f.file_id < g.file_id) && idsStrictMono (g :: rest)

/-- Every file of the set lives in the set's data directory under its own
file id as name. -/
def pathsCanonical (data_dir : Nat) (files : List DiskLogFile) : Bool :=
  files.all (fun f => f.path = (data_dir, f.file_id))

/-- Keys of a put sequence are pairwise distinct. -/
def distinctKeys : List (Key × Value) → Bool
  | [] => true
  | p :: rest => rest.all (fun q => q.1 ≠ p.1) && distinctKeys rest

/-- All values of a put sequence are nonempty. -/
def valuesNonempty (ps : List (Key × Value)) : Bool :=
  ps.all (fun p => ¬ p.2.isEmpty)

/-- Run a sequence of unconditional fault-free puts through the engine. -/
def runPuts (fs : FS) (st : LogStorage) : List (Key × Value) → FS × LogStorage
  | [] => (fs, st)
  | (k, v) :: rest =>
    let r := LogStorage.put none fs st k v none
    runPuts r.1 r.2.1 rest

/-- The filesystem right after `LogStorage::new` on the fresh directory 0:
one empty log file `0/0.bitcask`. -/
def fs0 : FS := [((0, 0), [])]

/-- The engine right after `LogStorage::new` on the fresh directory 0. -/
def st0 : LogStorage :=
  { data_dir := 0
    disk_log := { files := [{ file_id := 0, path := (0, 0) }], data_dir := 0,
                  current_file_size := 0, immutable := false }
    mem_index := [] }

/-- The abstract key-value map update performed by one put: an empty value
is recorded as a tombstone-sized entry, hence logically absent. -/
def putModel (M : Key → Option Value) (p : Key × Value) : Key → Option Value :=
  fun k => if k = p.1 then (if p.2.isEmpty then none else some p.2) else M k

/-- The abstract map after a sequence of puts. -/
def modelOfPuts (ps : List (Key × Value)) (M : Key → Option Value) :
    Key → Option Value :=
  ps.foldl putModel M

/-- One index entry, as seen through `LogStorage::get`, realizes the
abstract value `ov`: a tombstone entry denotes absence; a live entry points
at in-bounds bytes of its file that read back as the value. -/
def entryRealizes (fs : FS) (dl : DiskLogFileStorage)
    (oe : Option MemIndexEntry) (ov : Option Value) : Prop :=
  match oe with
  | none => ov = none
  | some e =>
    e.file_id < dl.files.length ∧
    (if e.value_size = 0 then ov = none
     else ∃ v, ov = some v ∧ v.length = e.value_size ∧
       e.value_offset + e.value_size ≤ (fsRead fs (dl.data_dir, e.file_id)).length ∧
       ((fsRead fs (dl.data_dir, e.file_id)).drop e.value_offset).take e.value_size = v)

/-- The refinement invariant tying a reachable engine state to the abstract
map `M` it represents.  It holds for the fresh engine and is preserved by
every fault-free put. -/
structure EngineInv (fs : FS) (st : LogStorage) (M : Key → Option Value) : Prop where
  files_ne : st.disk_log.files ≠ []
  imm : st.disk_log.immutable = false
  ids : ∀ (i : Nat) (f : DiskLogFile), st.disk_log.files.get? i = some f →
    f.file_id = i ∧ f.path = (st.disk_log.data_dir, i)
  future : ∀ j, st.disk_log.files.length ≤ j →
    fsLookup fs (st.disk_log.data_dir, j) = none
  idx : ∀ k, entryRealizes fs st.disk_log (st.mem_index.get k) (M k)

/-! ### Concrete inputs for the counterexample and code-bug theorems -/

/-- A data directory (number 5) holding two log files that both carry a
record for the key `[107]`: file `0.bitcask` maps it to `[49]`, file
`1.bitcask` maps it to `[50]`. -/
def c2fs : FS :=
  [((5, 0), (DiskLogEntry.new_entry [107] [49]).serializeBytes),
   ((5, 1), (DiskLogEntry.new_entry [107] [50]).serializeBytes)]

/-- Open the engine on that directory with `read_dir` enumerating file 1
before file 0. -/
def c2engine : Res (FS × LogStorage) :=
  LogStorage.new c2fs 5 [(5, 1), (5, 0)]

/-- Public-API run: fresh engine, one put, two compactions, then a second
put.  Leaves the file set with ids `{0, 2}` and key `[98]` indexed in file
id 2. -/
def c4run : Res (FS × LogStorage) :=
  match LogStorage.new [] 0 [] with
  | .error e => .error e
  | .ok (fs, st) =>
    runOps fs st
      [.putOp [97] [49] none, .compactOp 1, .compactOp 2, .putOp [98] [50] none]

/-- The same public-API run followed by a third compaction. -/
def c3run : Res (FS × LogStorage) :=
  match LogStorage.new [] 0 [] with
  | .error e => .error e
  | .ok (fs, st) =>
    runOps fs st
      [.putOp [97] [49] none, .compactOp 1, .compactOp 2, .putOp [98] [50] none,
       .compactOp 3]

/-- The state reached by a single put of the empty value on the fresh
engine (the instantiation of claim C1 at the one-element sequence
`[(key [97], value [])]`). -/
def c1run : FS × LogStorage × Res Unit :=
  LogStorage.put none fs0 st0 [97] [] none

/-- How many bytes `DiskLogEntry::deserialize` needs for a complete record
of the stream `buf`: 20 header bytes plus the key and value sizes declared
in the header (when the header itself is incomplete, the 20 header bytes). -/
def recordRequiredSize (buf : List Byte) : Nat :=
  if buf.length < 20 then 20
  else 20 + fromBEBytes ((buf.drop 4).take 8) + fromBEBytes ((buf.drop 12).take 8)

/-- A file set whose tracked size already exceeds the threshold while the
actual file is small: the rollover re-check consults the actual length and
creates no file. -/
def dlC8 : DiskLogFileStorage :=
  { files := [{ file_id := 0, path := (0, 0) }], data_dir := 0,
    current_file_size := DiskLogFile.MAX_FILE_SIZE + 5, immutable := false }


/-! ## Basic lemmas about the filesystem and index models -/

theorem beBytes_length (width n : Nat) : (beBytes width n).length = width := by
  induction width generalizing n with
  | zero => simp [beBytes]
  | succ w ih => simp [beBytes, ih]

theorem foldl_beBytes (width : Nat) : ∀ (n a : Nat),
    (beBytes width n).foldl (fun acc b => acc * 256 + b) a
      = a * 256 ^ width + n % 256 ^ width := by
  induction width with
  | zero => intro n a; simp [beBytes, Nat.mod_one]
  | succ w ih =>
    intro n a
    have h256 : (256 : Nat) ^ (w + 1) = 256 ^ w * 256 := by ring
    calc (beBytes (w + 1) n).foldl (fun acc b => acc * 256 + b) a
        = ((beBytes w (n / 256)).foldl (fun acc b => acc * 256 + b) a) * 256
            + n % 256 := by
          simp [beBytes, List.foldl_append]
      _ = (a * 256 ^ w + (n / 256) % 256 ^ w) * 256 + n % 256 := by rw [ih]
      _ = a * 256 ^ (w + 1) + ((n / 256) % 256 ^ w * 256 + n % 256) := by ring
      _ = a * 256 ^ (w + 1) + n % 256 ^ (w + 1) := by
          rw [h256, Nat.mul_comm (256 ^ w) 256, Nat.mod_mul]
          ring_nf

/-- Decoding inverts encoding, modulo the word width. -/
theorem fromBEBytes_beBytes (width n : Nat) :
    fromBEBytes (beBytes width n) = n % 256 ^ width := by
  simpa [fromBEBytes] using foldl_beBytes width n 0

theorem fromBEBytes_beBytes_of_lt {width n : Nat} (h : n < 256 ^ width) :
    fromBEBytes (beBytes width n) = n := by
  rw [fromBEBytes_beBytes, Nat.mod_eq_of_lt h]

theorem crcStep_lt (crc : Nat) : crcStep crc < 2 ^ 32 := by
  unfold crcStep
  have h1 : crc * 2 % 2 ^ 32 < 2 ^ 32 := Nat.mod_lt _ (by norm_num)
  have h2 : (0x04C11DB3 : Nat) < 2 ^ 32 := by norm_num
  split
  · exact Nat.xor_lt_two_pow h1 h2
  · exact h1

theorem crcByte_lt (crc b : Nat) : crcByte crc b < 2 ^ 32 := by
  unfold crcByte
  exact crcStep_lt _

theorem foldl_crcByte_lt (bytes : List Byte) : ∀ a : Nat, a < 2 ^ 32 →
    bytes.foldl crcByte a < 2 ^ 32 := by
  induction bytes with
  | nil => intro a ha; simpa using ha
  | cons b rest ih =>
    intro a _
    simp only [List.foldl_cons]
    exact ih (crcByte a b) (crcByte_lt a b)

theorem crc32_cksum_lt (bytes : List Byte) : crc32_cksum bytes < 2 ^ 32 := by
  unfold crc32_cksum
  exact Nat.xor_lt_two_pow (foldl_crcByte_lt bytes 0 (by norm_num)) (by norm_num)


theorem fsLookup_fsSet_self (fs : FS) (p : FPath) (c : List Byte) :
    fsLookup (fsSet fs p c) p = some c := by
  induction fs with
  | nil => simp [fsSet, fsLookup]
  | cons qc rest ih =>
    by_cases h : p = qc.1
    · simp [fsSet, fsLookup, h]
    · simp [fsSet, fsLookup, h, ih]

theorem fsLookup_fsSet_ne (fs : FS) (p q : FPath) (c : List Byte)
    (h : q ≠ p) : fsLookup (fsSet fs p c) q = fsLookup fs q := by
  induction fs with
  | nil => simp [fsSet, fsLookup, h]
  | cons qc rest ih =>
    by_cases hp : p = qc.1
    · subst hp; simp [fsSet, fsLookup, h]
    · by_cases hq : q = qc.1
      · simp [fsSet, fsLookup, hp, hq]
      · simp [fsSet, fsLookup, hp, hq, ih]

theorem fsRead_fsSet_self (fs : FS) (p : FPath) (c : List Byte) :
    fsRead (fsSet fs p c) p = c := by
  simp [fsRead, fsLookup_fsSet_self]

theorem fsRead_fsSet_ne (fs : FS) (p q : FPath) (c : List Byte) (h : q ≠ p) :
    fsRead (fsSet fs p c) q = fsRead fs q := by
  simp [fsRead, fsLookup_fsSet_ne fs p q c h]

theorem MemIndexStorage.get_put_self (m : MemIndexStorage) (k : Key)
    (e : MemIndexEntry) : (m.put k e).get k = some e := by
  induction m with
  | nil => simp [put, get]
  | cons ke rest ih =>
    by_cases h : k = ke.1
    · simp [put, get, h]
    · by_cases hlt : keyLt k ke.1
      · simp [put, get, h, hlt]
      · simp [put, get, h, hlt, ih]

theorem MemIndexStorage.get_put_ne (m : MemIndexStorage) (k k' : Key)
    (e : MemIndexEntry) (h : k' ≠ k) : (m.put k e).get k' = m.get k' := by
  induction m with
  | nil => simp [put, get, h]
  | cons ke rest ih =>
    by_cases hk : k = ke.1
    · subst hk; simp [put, get, h]
    · by_cases hlt : keyLt k ke.1
      · simp [put, get, h, hlt, hk]
      · by_cases hk' : k' = ke.1
        · simp [put, get, hk, hlt, hk']
        · simp [put, get, hk, hlt, hk', ih]

/-! ## Lemmas about the serialized record layout -/

namespace DiskLogEntry

/-- The serialized record is the 20-byte header followed by key and value. -/
theorem serializeBytes_eq (e : DiskLogEntry) :
    e.serializeBytes
      = (beBytes 4 e.check_sum ++ beBytes 8 e.key_byte_size
          ++ beBytes 8 e.value_byte_size ++ e.key)
        ++ (match e.value with | some v => v | none => []) := by
  simp [serializeBytes]

theorem serializeBytes_length (e : DiskLogEntry) :
    e.serializeBytes.length = e.total_byte_size := by
  cases hv : e.value with
  | some v =>
    simp [serializeBytes, total_byte_size, check_sum_byte_size, size_byte_len,
      key_byte_size, value_byte_size, beBytes_length, hv]
    ring
  | none =>
    simp [serializeBytes, total_byte_size, check_sum_byte_size, size_byte_len,
      key_byte_size, value_byte_size, beBytes_length, hv]
    ring

/-- The value payload sits at `value_byte_offset` inside the record. -/
theorem value_at_offset (e : DiskLogEntry) (v : Value) (hv : e.value = some v) :
    (e.serializeBytes.drop e.value_byte_offset).take v.length = v := by
  have hlen : (beBytes 4 e.check_sum ++ beBytes 8 e.key_byte_size
      ++ beBytes 8 e.value_byte_size ++ e.key).length = e.value_byte_offset := by
    simp [beBytes_length, value_byte_offset, check_sum_byte_size, size_byte_len,
      key_byte_size]
    ring
  rw [serializeBytes_eq, hv, ← hlen, List.drop_left, List.take_length]

end DiskLogEntry

/-- Reading a range that lies inside `c` is unaffected by appending `t`. -/
theorem extract_append_of_le (c t : List Byte) (o s : Nat)
    (h : o + s ≤ c.length) :
    ((c ++ t).drop o).take s = (c.drop o).take s := by
  have ho : o ≤ c.length := le_trans (Nat.le_add_right o s) h
  rw [List.drop_append_of_le_length ho]
  exact List.take_append_of_le_length (by simp; omega)

/-! ## The fault-free append path -/

/-- Model of `DiskLogFile.new` never changes an existing file's contents. -/
theorem DiskLogFile.new_snd (fs : FS) (d id : Nat) :
    (DiskLogFile.new fs d id).2 = { file_id := id, path := (d, id) } := rfl

/-- What a fault-free `append_log_entry` does on a mutable, non-empty file
set: the record is appended to the last file, the tracked size grows by the
record size, and a new file `last id + 1` is created exactly when both the
tracked size and the actual appended file length exceed the threshold. -/
theorem DiskLogFileStorage.append_log_entry_none_eq (fs : FS)
    (dl : DiskLogFileStorage) (entry : DiskLogEntry) (lastf : DiskLogFile)
    (himm : dl.immutable = false) (hlast : dl.files.getLast? = some lastf) :
    DiskLogFileStorage.append_log_entry none fs dl entry =
      (let c := fsRead fs lastf.path
       let fs1 := fsSet fs lastf.path (c ++ entry.serializeBytes)
       let dl1 : DiskLogFileStorage :=
         { dl with current_file_size := dl.current_file_size + entry.total_byte_size }
       ((if dl1.current_file_size > DiskLogFile.MAX_FILE_SIZE
            ∧ (c ++ entry.serializeBytes).length > DiskLogFile.MAX_FILE_SIZE
         then (DiskLogFile.new fs1 dl.data_dir (lastf.file_id + 1)).1 else fs1),
        (if dl1.current_file_size > DiskLogFile.MAX_FILE_SIZE
            ∧ (c ++ entry.serializeBytes).length > DiskLogFile.MAX_FILE_SIZE
         then
          { dl1 with files := dl1.files
              ++ [{ file_id := lastf.file_id + 1,
                    path := (dl.data_dir, lastf.file_id + 1) }] }
         else dl1),
        .ok { file_id := lastf.file_id,
              value_offset := (fsRead fs lastf.path).length + entry.value_byte_offset,
              value_size := entry.value_byte_size })) := by
  unfold DiskLogFileStorage.append_log_entry
  rw [himm]
  simp only [Bool.false_eq_true, if_false, hlast]
  unfold DiskLogFile.append_new_entry
  simp only
  set c := fsRead fs lastf.path with hc
  set fs1 := fsSet fs lastf.path (c ++ entry.serializeBytes) with hfs1
  have hread1 : fsRead fs1 lastf.path = c ++ entry.serializeBytes :=
    fsRead_fsSet_self fs lastf.path (c ++ entry.serializeBytes)
  by_cases htracked : dl.current_file_size + entry.total_byte_size
      > DiskLogFile.MAX_FILE_SIZE
  · simp only [htracked, if_true, decide_eq_true_eq]
    unfold DiskLogFileStorage.check_file_size
    simp only [hlast, hread1]
    by_cases hactual : DiskLogFile.MAX_FILE_SIZE
        < c.length + entry.serializeBytes.length
    · unfold DiskLogFileStorage.create_new_file
      simp [hlast, htracked, hactual, DiskLogFile.new_snd, List.length_append]
    · simp [htracked, hactual, List.length_append]
  · simp [htracked, List.length_append]

/-- A non-empty list has a last element. -/
theorem exists_getLast? {α : Type} (l : List α) (h : l ≠ []) :
    ∃ a, l.getLast? = some a := by
  cases hl : l.getLast? with
  | some a => exact ⟨a, rfl⟩
  | none => exact absurd (List.getLast?_eq_none_iff.mp hl) h

/-- Success shape of a fault-free append: it returns `ok` with the index
entry locating the appended record's value in the active file. -/
theorem DiskLogFileStorage.append_log_entry_none_ok (fs : FS)
    (dl : DiskLogFileStorage) (entry : DiskLogEntry) (lastf : DiskLogFile)
    (himm : dl.immutable = false) (hlast : dl.files.getLast? = some lastf) :
    ∃ fs' dl',
      DiskLogFileStorage.append_log_entry none fs dl entry =
        (fs', dl',
         .ok { file_id := lastf.file_id,
               value_offset := (fsRead fs lastf.path).length + entry.value_byte_offset,
               value_size := entry.value_byte_size }) := by
  rw [DiskLogFileStorage.append_log_entry_none_eq fs dl entry lastf himm hlast]
  exact ⟨_, _, rfl⟩

/-- A faulted append fails with the I/O error, leaves the file-set state
untouched, and leaves only partial record bytes in the active file. -/
theorem DiskLogFileStorage.append_log_entry_fault_eq (fs : FS)
    (dl : DiskLogFileStorage) (entry : DiskLogEntry) (lastf : DiskLogFile)
    (j : Nat) (himm : dl.immutable = false)
    (hlast : dl.files.getLast? = some lastf) :
    DiskLogFileStorage.append_log_entry (some j) fs dl entry =
      (fsSet fs lastf.path (fsRead fs lastf.path ++ entry.serializeBytes.take j),
       dl, .error (.err .ioError)) := by
  unfold DiskLogFileStorage.append_log_entry
  rw [himm]
  simp only [Bool.false_eq_true, if_false, hlast]
  unfold DiskLogFile.append_new_entry
  simp

/-! ## Claim C10: the nx flag is tested before the xx flag -/

/-- C10: for every key, value, fault environment and state, a put whose
option has both `nx` and `xx` set behaves exactly as a put with only `nx`
set: `LogStorage::put` tests `option.nx` first, so the `xx` flag is
ignored. -/
theorem c10_nx_takes_precedence (fault : Option Nat) (fs : FS)
    (st : LogStorage) (key : Key) (value : Value) :
    LogStorage.put fault fs st key value (some { nx := true, xx := true })
      = LogStorage.put fault fs st key value (some { nx := true, xx := false }) :=
  rfl

/-! ## Claim C7: short reads in the codec -/

/-- C7 counterexample: deserializing the empty stream — which ends before a
complete record could be read — fails, but with the I/O error kind
(`read_exact`'s `UnexpectedEof`), not with the `CorruptedData` kind the
claim requires. -/
theorem c7_short_read_counterexample :
    DiskLogEntry.deserialize ([] : List Byte) = .error (.err .ioError)
      ∧ isCorruptedErr (DiskLogEntry.deserialize ([] : List Byte)) = false := by
  constructor
  · rfl
  · rfl


/-- C7 as amended: for every input byte stream that ends before a complete
record could be read (`recordRequiredSize` names the needed byte count),
deserialization of a record fails with the I/O error kind — `read_exact`'s
`UnexpectedEof` wrapped into `BitCaskError::IoError` — not with the
`CorruptedData` kind. -/
theorem c7_short_read_is_io_error (buf : List Byte)
    (h : buf.length < recordRequiredSize buf) :
    DiskLogEntry.deserialize buf = .error (.err .ioError) := by
  simp only [DiskLogEntry.deserialize, readExact, List.drop_drop, List.length_drop]
  by_cases c4 : 4 ≤ buf.length
  swap
  · simp [c4]
  simp only [c4, if_true, List.length_drop, List.drop_drop]
  by_cases c12 : 8 ≤ buf.length - 4
  swap
  · simp [c12]
  simp only [c12, if_true, List.length_drop, List.drop_drop]
  by_cases c20 : 8 ≤ buf.length - 12
  swap
  · simp [c20]
  simp only [c20, if_true, List.length_drop, List.drop_drop]
  have hlen20 : 20 ≤ buf.length := by omega
  set ks := fromBEBytes (List.take 8 (List.drop 4 buf)) with hks
  set vs := fromBEBytes (List.take 8 (List.drop 12 buf)) with hvs
  have hshort : buf.length < 20 + ks + vs := by
    unfold recordRequiredSize at h
    rw [if_neg (by omega)] at h
    omega
  by_cases ckey : ks ≤ buf.length - 20
  swap
  · simp [ckey]
  simp only [ckey, if_true, List.length_drop, List.drop_drop]
  have cvpos : 0 < vs := by omega
  simp only [cvpos, if_true]
  have cvfail : ¬ vs ≤ buf.length - (20 + ks) := by omega
  simp [cvfail]

/-- Witness for `c7_short_read_is_io_error` at the concrete four-byte
stream `[0, 0, 0, 0]` (a record needs at least its 20 header bytes). -/
theorem c7_short_read_is_io_error_witness :
    ([0, 0, 0, 0] : List Byte).length < recordRequiredSize [0, 0, 0, 0]
      ∧ DiskLogEntry.deserialize ([0, 0, 0, 0] : List Byte)
          = .error (.err .ioError) :=
  ⟨by decide, c7_short_read_is_io_error [0, 0, 0, 0] (by decide)⟩

/-! ## Claims C2, C3, C4: recovery order and positional file lookup -/

/-- C2 (code bug): on the directory `c2fs` — files `0.bitcask` and
`1.bitcask` both holding a record for key `[107]` — with `read_dir`
enumerating file 1 before file 0, `from_disk` leaves the index pointing at
file 0's older record (value `[49]`), because the recovery scan runs in
enumeration order and the sort by file id happens only after scanning.
The claim requires the record of the higher-id file 1 (value `[50]`) to
win. -/
theorem c2_enumeration_order_scan :
    (match c2engine with
     | .ok (fs, st) => some (st.mem_index.get [107], LogStorage.get fs st [107])
     | .error _ => none)
      = some (some { file_id := 0, value_offset := 21, value_size := 1 },
              .ok (some [49])) := by
  decide

/-- C3 (code bug): running the public-API sequence `new(dir 0); put([97],
[49]); compact_to(dir 1); compact_to(dir 2); put([98], [50]);
compact_to(dir 3)` panics inside the snapshot-reading loop of
`start_compaction`: after two compactions the file ids are `{0, 2}`, key
`[98]` is indexed in file id 2, and `get_file` looks the file up
positionally (`files.get(2)` in a two-element vector) and unwraps `None` —
instead of producing the equivalent compacted engine the claim describes. -/
theorem c3_compaction_panics : isPanicked c3run = true := by decide

/-- C4 (code bug): after the public-API sequence `new(dir 0); put([97],
[49]); compact_to(dir 1); compact_to(dir 2); put([98], [50])` — a state
whose file set has ids `{0, 2}` and whose index maps `[98]` to file id 2, a
file present in the engine's file set — `get([98])` panics via `get_file`'s
positional `files.get(file_id).unwrap()` instead of returning the value or
absent. -/
theorem c4_get_panics :
    (match c4run with
     | .ok (fs, st) => isPanicked (LogStorage.get fs st [98])
     | .error _ => false) = true := by decide

/-! ## Claim C1: round-trip -/

/-- C1 counterexample: the claim's round-trip instantiated at the
one-element put sequence `[([97], [])]` (keys trivially pairwise distinct,
value empty) on the fresh engine: the put succeeds, but the following get
returns absent, not the empty value. -/
theorem c1_empty_value_counterexample :
    c1run.2.2 = .ok ()
      ∧ LogStorage.get c1run.1 c1run.2.1 [97] = .ok none
      ∧ LogStorage.get c1run.1 c1run.2.1 [97] ≠ .ok (some ([] : Value)) := by
  refine ⟨by decide, by decide, by decide⟩

/-! ## Claims C5, C6, C9: write-path semantics -/

/-- Structural description of a successful unconditional put: the record is
appended first (`DiskLogFileStorage::put`), and the index is then set to
exactly the entry the append returned. -/
theorem LogStorage.put_without_option_none_spec (fs : FS) (st : LogStorage)
    (key : Key) (value : Value) (lastf : DiskLogFile)
    (himm : st.disk_log.immutable = false)
    (hlast : st.disk_log.files.getLast? = some lastf) :
    ∃ fs' dl',
      DiskLogFileStorage.put none fs st.disk_log key value
        = (fs', dl',
           .ok { file_id := lastf.file_id,
                 value_offset := (fsRead fs lastf.path).length
                   + (DiskLogEntry.new_entry key value).value_byte_offset,
                 value_size := (DiskLogEntry.new_entry key value).value_byte_size })
      ∧ LogStorage.put_without_option none fs st key value
        = (fs',
           { st with
             disk_log := dl'
             mem_index := st.mem_index.put key
               { file_id := lastf.file_id,
                 value_offset := (fsRead fs lastf.path).length
                   + (DiskLogEntry.new_entry key value).value_byte_offset,
                 value_size := (DiskLogEntry.new_entry key value).value_byte_size } },
           .ok ()) := by
  obtain ⟨fs', dl', happ⟩ := DiskLogFileStorage.append_log_entry_none_ok fs
    st.disk_log (DiskLogEntry.new_entry key value) lastf himm hlast
  refine ⟨fs', dl', happ, ?_⟩
  unfold LogStorage.put_without_option DiskLogFileStorage.put
  rw [happ]

/-- C5: on a mutable engine with a non-empty file set, `put(k, v, nx)`
fails with `KeyExists` exactly when the index holds a live (non-tombstone)
entry for `k`; `put(k, v, xx)` fails with `KeyNotFound` exactly when it
does not; in every other case the put behaves as the unconditional put,
which appends a value record and sets the index entry to the location
returned by the append. -/
theorem c5_nx_xx_semantics (fs : FS) (st : LogStorage) (key : Key) (value : Value)
    (himm : st.disk_log.immutable = false)
    (hne : st.disk_log.files ≠ []) :
    ((LogStorage.put none fs st key value (some { nx := true, xx := false })).2.2
        = .error (.err .keyExists) ↔ hasLive st key = true)
    ∧ ((LogStorage.put none fs st key value (some { nx := false, xx := true })).2.2
        = .error (.err .keyNotFound) ↔ hasLive st key = false)
    ∧ (hasLive st key = false →
        LogStorage.put none fs st key value (some { nx := true, xx := false })
          = LogStorage.put_without_option none fs st key value)
    ∧ (hasLive st key = true →
        LogStorage.put none fs st key value (some { nx := false, xx := true })
          = LogStorage.put_without_option none fs st key value)
    ∧ (∃ fs' dl' e,
        DiskLogFileStorage.put none fs st.disk_log key value = (fs', dl', .ok e)
        ∧ LogStorage.put_without_option none fs st key value
            = (fs', { st with
                      disk_log := dl'
                      mem_index := st.mem_index.put key e }, .ok ())) := by
  obtain ⟨lastf, hlast⟩ := exists_getLast? _ hne
  obtain ⟨fs', dl', hput, hpwo⟩ :=
    LogStorage.put_without_option_none_spec fs st key value lastf himm hlast
  refine ⟨?_, ?_, ?_, ?_, fs', dl', _, hput, hpwo⟩
  · cases hidx : st.mem_index.get key with
    | none =>
      simp [LogStorage.put, LogStorage.put_nx, hidx, hasLive, hpwo]
    | some e =>
      by_cases htomb : e.is_tombstone
      · simp [LogStorage.put, LogStorage.put_nx, hidx, htomb, hasLive, hpwo]
      · simp [LogStorage.put, LogStorage.put_nx, hidx, htomb, hasLive]
  · cases hidx : st.mem_index.get key with
    | none =>
      simp [LogStorage.put, LogStorage.put_xx, hidx, hasLive]
    | some e =>
      by_cases htomb : e.is_tombstone
      · simp [LogStorage.put, LogStorage.put_xx, hidx, htomb, hasLive]
      · simp [LogStorage.put, LogStorage.put_xx, hidx, htomb, hasLive, hpwo]
  · intro hlive
    cases hidx : st.mem_index.get key with
    | none => simp [LogStorage.put, LogStorage.put_nx, hidx]
    | some e =>
      rw [hasLive, hidx] at hlive
      simp at hlive
      simp [LogStorage.put, LogStorage.put_nx, hidx, hlive]
  · intro hlive
    cases hidx : st.mem_index.get key with
    | none => rw [hasLive, hidx] at hlive; simp at hlive
    | some e =>
      rw [hasLive, hidx] at hlive
      simp at hlive
      simp [LogStorage.put, LogStorage.put_xx, hidx, hlive]

/-- Witness for `c5_nx_xx_semantics` at the fresh engine and key `[1]`,
value `[2]`. -/
theorem c5_nx_xx_semantics_witness :
    (st0.disk_log.immutable = false ∧ st0.disk_log.files ≠ [])
    ∧ (((LogStorage.put none fs0 st0 [1] [2] (some { nx := true, xx := false })).2.2
          = .error (.err .keyExists) ↔ hasLive st0 [1] = true)
      ∧ ((LogStorage.put none fs0 st0 [1] [2] (some { nx := false, xx := true })).2.2
          = .error (.err .keyNotFound) ↔ hasLive st0 [1] = false)
      ∧ (hasLive st0 [1] = false →
          LogStorage.put none fs0 st0 [1] [2] (some { nx := true, xx := false })
            = LogStorage.put_without_option none fs0 st0 [1] [2])
      ∧ (hasLive st0 [1] = true →
          LogStorage.put none fs0 st0 [1] [2] (some { nx := false, xx := true })
            = LogStorage.put_without_option none fs0 st0 [1] [2])
      ∧ (∃ fs' dl' e,
          DiskLogFileStorage.put none fs0 st0.disk_log [1] [2] = (fs', dl', .ok e)
          ∧ LogStorage.put_without_option none fs0 st0 [1] [2]
              = (fs', { st0 with
                        disk_log := dl'
                        mem_index := st0.mem_index.put [1] e }, .ok ()))) :=
  ⟨⟨by decide, by decide⟩,
   c5_nx_xx_semantics fs0 st0 [1] [2] (by decide) (by decide)⟩

/-- C6: write-path atomicity of the index.  When the disk append fails
(fault `some j`), a put or delete surfaces the I/O error and the in-memory
index is exactly as before the operation; a put through any option also
leaves the index untouched whenever it does not succeed; and on success
the index is set only after the append, to the entry the append returned. -/
theorem c6_append_first_index_after (fs : FS) (st : LogStorage) (key : Key)
    (value : Value) (j : Nat)
    (himm : st.disk_log.immutable = false)
    (hne : st.disk_log.files ≠ []) :
    ((LogStorage.put_without_option (some j) fs st key value).2.2
        = .error (.err .ioError)
      ∧ (LogStorage.put_without_option (some j) fs st key value).2.1.mem_index
          = st.mem_index)
    ∧ ((LogStorage.delete (some j) fs st key).2.2 = .error (.err .ioError)
      ∧ (LogStorage.delete (some j) fs st key).2.1.mem_index = st.mem_index)
    ∧ (∀ o : Option PutOption,
        (LogStorage.put (some j) fs st key value o).2.2 ≠ .ok ()
        ∧ (LogStorage.put (some j) fs st key value o).2.1.mem_index = st.mem_index)
    ∧ (∃ fs' dl' e,
        DiskLogFileStorage.put none fs st.disk_log key value = (fs', dl', .ok e)
        ∧ LogStorage.put_without_option none fs st key value
            = (fs', { st with
                      disk_log := dl'
                      mem_index := st.mem_index.put key e }, .ok ())) := by
  obtain ⟨lastf, hlast⟩ := exists_getLast? _ hne
  have hfa : DiskLogFileStorage.append_log_entry (some j) fs st.disk_log
      (DiskLogEntry.new_entry key value) =
      (fsSet fs lastf.path
        (fsRead fs lastf.path
          ++ (DiskLogEntry.new_entry key value).serializeBytes.take j),
       st.disk_log, .error (.err .ioError)) :=
    DiskLogFileStorage.append_log_entry_fault_eq fs st.disk_log _ lastf j himm hlast
  have hfd : DiskLogFileStorage.append_log_entry (some j) fs st.disk_log
      (DiskLogEntry.new_tombstone key) =
      (fsSet fs lastf.path
        (fsRead fs lastf.path
          ++ (DiskLogEntry.new_tombstone key).serializeBytes.take j),
       st.disk_log, .error (.err .ioError)) :=
    DiskLogFileStorage.append_log_entry_fault_eq fs st.disk_log _ lastf j himm hlast
  have hpwo : (LogStorage.put_without_option (some j) fs st key value).2.2
        = .error (.err .ioError)
      ∧ (LogStorage.put_without_option (some j) fs st key value).2.1.mem_index
        = st.mem_index := by
    unfold LogStorage.put_without_option DiskLogFileStorage.put
    rw [hfa]
    exact ⟨rfl, rfl⟩
  refine ⟨hpwo, ?_, ?_, ?_⟩
  · unfold LogStorage.delete DiskLogFileStorage.delete
    rw [hfd]
    exact ⟨rfl, rfl⟩
  · intro o
    match o with
    | none => exact ⟨by simp [LogStorage.put, hpwo.1], by simp [LogStorage.put, hpwo.2]⟩
    | some po =>
      by_cases hnx : po.nx
      · cases hidx : st.mem_index.get key with
        | none =>
          simp [LogStorage.put, hnx, LogStorage.put_nx, hidx, hpwo.1, hpwo.2]
        | some e =>
          by_cases htomb : e.is_tombstone
          · simp [LogStorage.put, hnx, LogStorage.put_nx, hidx, htomb, hpwo.1, hpwo.2]
          · simp [LogStorage.put, hnx, LogStorage.put_nx, hidx, htomb]
      · by_cases hxx : po.xx
        · cases hidx : st.mem_index.get key with
          | none => simp [LogStorage.put, hnx, hxx, LogStorage.put_xx, hidx]
          | some e =>
            by_cases htomb : e.is_tombstone
            · simp [LogStorage.put, hnx, hxx, LogStorage.put_xx, hidx, htomb]
            · simp [LogStorage.put, hnx, hxx, LogStorage.put_xx, hidx, htomb,
                hpwo.1, hpwo.2]
        · simp [LogStorage.put, hnx, hxx, hpwo.1, hpwo.2]
  · obtain ⟨fs', dl', hput, hpwo'⟩ :=
      LogStorage.put_without_option_none_spec fs st key value lastf himm hlast
    exact ⟨fs', dl', _, hput, hpwo'⟩

/-- Witness for `c6_append_first_index_after` at the fresh engine, key
`[1]`, value `[2]`, and an append failing after 0 bytes. -/
theorem c6_append_first_index_after_witness :
    (st0.disk_log.immutable = false ∧ st0.disk_log.files ≠ [])
    ∧ (((LogStorage.put_without_option (some 0) fs0 st0 [1] [2]).2.2
          = .error (.err .ioError)
        ∧ (LogStorage.put_without_option (some 0) fs0 st0 [1] [2]).2.1.mem_index
            = st0.mem_index)
      ∧ ((LogStorage.delete (some 0) fs0 st0 [1]).2.2 = .error (.err .ioError)
        ∧ (LogStorage.delete (some 0) fs0 st0 [1]).2.1.mem_index = st0.mem_index)
      ∧ (∀ o : Option PutOption,
          (LogStorage.put (some 0) fs0 st0 [1] [2] o).2.2 ≠ .ok ()
          ∧ (LogStorage.put (some 0) fs0 st0 [1] [2] o).2.1.mem_index
              = st0.mem_index)
      ∧ (∃ fs' dl' e,
          DiskLogFileStorage.put none fs0 st0.disk_log [1] [2] = (fs', dl', .ok e)
          ∧ LogStorage.put_without_option none fs0 st0 [1] [2]
              = (fs', { st0 with
                        disk_log := dl'
                        mem_index := st0.mem_index.put [1] e }, .ok ()))) :=
  ⟨⟨by decide, by decide⟩,
   c6_append_first_index_after fs0 st0 [1] [2] 0 (by decide) (by decide)⟩

/-- Model of `read_exact` of exactly the first `a.length` bytes of `a ++ b`. -/
theorem readExact_append (a b : List Byte) (n : Nat) (h : a.length = n) :
    readExact n (a ++ b) = .ok (a, b) := by
  unfold readExact
  subst h
  simp [List.take_left, List.drop_left]

/-- A file holding exactly one record that parses as a tombstone is
recovery-scanned into a deletion of that record's key. -/
theorem scanFileAux_single (fid cursor : Nat) (mem : MemIndexStorage)
    (bytes : List Byte) (entry : DiskLogEntry)
    (hd : DiskLogEntry.deserialize bytes = .ok (entry, []))
    (ht : entry.is_tombstone = true) :
    scanFileAux fid (bytes.length + 1) cursor bytes mem
      = .ok (mem.delete entry.key) := by
  cases bytes with
  | nil => exact absurd hd (by simp [DiskLogEntry.deserialize, readExact])
  | cons b bs =>
    show scanFileAux fid (bs.length + 1 + 1) cursor (b :: bs) mem = _
    unfold scanFileAux
    rw [hd]
    simp only [ht, if_true, if_pos]
    unfold scanFileAux
    rfl

/-- C9: a successful put of the empty value produces a record and an index
entry with `value_size = 0`: the index entry is a tombstone, the following
get on the same key returns absent, the written record itself deserializes
as a tombstone, and a recovery scan of that record deletes the key (so a
subsequent compaction drops it) — even though the put reported success. -/
theorem c9_empty_value_is_delete (fs : FS) (st : LogStorage) (key : Key)
    (himm : st.disk_log.immutable = false)
    (hne : st.disk_log.files ≠ [])
    (hklen : key.length < 256 ^ 8) :
    (LogStorage.put none fs st key [] none).2.2 = .ok ()
    ∧ (∃ e, (LogStorage.put none fs st key [] none).2.1.mem_index.get key = some e
        ∧ e.value_size = 0 ∧ e.is_tombstone = true)
    ∧ LogStorage.get (LogStorage.put none fs st key [] none).1
        (LogStorage.put none fs st key [] none).2.1 key = .ok none
    ∧ (DiskLogEntry.new_entry key []).value_byte_size = 0
    ∧ DiskLogEntry.deserialize ((DiskLogEntry.new_entry key []).serializeBytes)
        = .ok ({ check_sum := crc32_cksum [], key := key, value := none }, [])
    ∧ (∀ (fid : FileId) (mem : MemIndexStorage),
        DiskLogFile.populate_mem_index
            [((0, 0), (DiskLogEntry.new_entry key []).serializeBytes)]
            { file_id := fid, path := (0, 0) } mem
          = .ok (mem.delete key)) := by
  obtain ⟨lastf, hlast⟩ := exists_getLast? _ hne
  obtain ⟨fs', dl', hput, hpwo⟩ :=
    LogStorage.put_without_option_none_spec fs st key [] lastf himm hlast
  have hvb0 : (DiskLogEntry.new_entry key []).value_byte_size = 0 := rfl
  have hputn : LogStorage.put none fs st key [] none
      = LogStorage.put_without_option none fs st key [] := rfl
  have hdeser : DiskLogEntry.deserialize ((DiskLogEntry.new_entry key []).serializeBytes)
      = .ok ({ check_sum := crc32_cksum [], key := key, value := none }, []) := by
    have hser : (DiskLogEntry.new_entry key []).serializeBytes
        = beBytes 4 (crc32_cksum []) ++ (beBytes 8 key.length
            ++ (beBytes 8 0 ++ (key ++ []))) := by
      simp [DiskLogEntry.serializeBytes, DiskLogEntry.new_entry,
        DiskLogEntry.key_byte_size, DiskLogEntry.value_byte_size]
    have h0 : fromBEBytes (beBytes 8 0) = 0 :=
      fromBEBytes_beBytes_of_lt (by norm_num)
    have hk : fromBEBytes (beBytes 8 key.length) = key.length :=
      fromBEBytes_beBytes_of_lt hklen
    have hcs : fromBEBytes (beBytes 4 (crc32_cksum [])) = crc32_cksum [] :=
      fromBEBytes_beBytes_of_lt (by
        have := crc32_cksum_lt []
        norm_num at this ⊢
        omega)
    have hkey : readExact key.length key = .ok (key, []) := by
      have := readExact_append key [] key.length rfl
      simpa using this
    rw [hser]
    simp [DiskLogEntry.deserialize, readExact_append, beBytes_length, h0, hk,
      hcs, hkey, DiskLogEntry.is_valid]
  refine ⟨?_, ?_, ?_, hvb0, hdeser, ?_⟩
  · rw [hputn, hpwo]
  · rw [hputn, hpwo]
    exact ⟨_, MemIndexStorage.get_put_self st.mem_index key _, rfl, rfl⟩
  · rw [hputn, hpwo]
    unfold LogStorage.get
    simp only
    rw [MemIndexStorage.get_put_self st.mem_index key _]
    simp [MemIndexEntry.is_tombstone, hvb0]
  · intro fid mem
    unfold DiskLogFile.populate_mem_index
    have hread : fsRead [((0, 0), (DiskLogEntry.new_entry key []).serializeBytes)]
        ((0 : Nat), (0 : Nat)) = (DiskLogEntry.new_entry key []).serializeBytes := by
      simp [fsRead, fsLookup]
    simp only [hread]
    exact scanFileAux_single fid 0 mem _ _ hdeser rfl

/-- Witness for `c9_empty_value_is_delete` at the fresh engine and key
`[97]`. -/
theorem c9_empty_value_is_delete_witness :
    (st0.disk_log.immutable = false ∧ st0.disk_log.files ≠ []
      ∧ ([97] : Key).length < 256 ^ 8)
    ∧ ((LogStorage.put none fs0 st0 [97] [] none).2.2 = .ok ()
      ∧ (∃ e, (LogStorage.put none fs0 st0 [97] [] none).2.1.mem_index.get [97]
            = some e ∧ e.value_size = 0 ∧ e.is_tombstone = true)
      ∧ LogStorage.get (LogStorage.put none fs0 st0 [97] [] none).1
          (LogStorage.put none fs0 st0 [97] [] none).2.1 [97] = .ok none
      ∧ (DiskLogEntry.new_entry [97] []).value_byte_size = 0
      ∧ DiskLogEntry.deserialize ((DiskLogEntry.new_entry [97] []).serializeBytes)
          = .ok ({ check_sum := crc32_cksum [], key := [97], value := none }, [])
      ∧ (∀ (fid : FileId) (mem : MemIndexStorage),
          DiskLogFile.populate_mem_index
              [((0, 0), (DiskLogEntry.new_entry [97] []).serializeBytes)]
              { file_id := fid, path := (0, 0) } mem
            = .ok (mem.delete [97]))) :=
  ⟨⟨by decide, by decide, by norm_num⟩,
   c9_empty_value_is_delete fs0 st0 [97] (by decide) (by decide) (by norm_num)⟩

/-! ## Claim C8: append and rollover -/

/-- The last element of a list is a member. -/
theorem mem_of_getLast?_eq {α : Type} (l : List α) (a : α)
    (h : l.getLast? = some a) : a ∈ l := by
  obtain ⟨hne, heq⟩ := List.mem_getLast?_eq_getLast (l := l) (x := a)
    (by rw [h]; rfl)
  rw [heq]
  exact List.getLast_mem hne

/-- With strictly increasing ids, the last file has the greatest id. -/
theorem idsStrictMono_last_max (files : List DiskLogFile) (lastf : DiskLogFile)
    (hmono : idsStrictMono files = true) (hlast : files.getLast? = some lastf) :
    ∀ f ∈ files, f.file_id ≤ lastf.file_id := by
  induction files with
  | nil => simp at hlast
  | cons f rest ih =>
    cases rest with
    | nil =>
      simp at hlast
      intro g hg
      simp at hg
      rw [hg, hlast]
    | cons g rest' =>
      simp only [idsStrictMono, Bool.and_eq_true, decide_eq_true_eq] at hmono
      obtain ⟨h1, h2⟩ := hmono
      rw [List.getLast?_cons_cons] at hlast
      intro x hx
      rcases List.mem_cons.mp hx with hxf | hxrest
      · have hg := ih h2 hlast g (List.mem_cons_self g rest')
        rw [hxf]
        exact le_trans (Nat.le_of_lt h1) hg
      · exact ih h2 hlast x hxrest

/-- Creating a file leaves every other path's contents unchanged. -/
theorem fsRead_new_ne (fs : FS) (d id : Nat) (p : FPath) (h : p ≠ (d, id)) :
    fsRead (DiskLogFile.new fs d id).1 p = fsRead fs p := by
  unfold DiskLogFile.new
  cases hlk : fsLookup fs (d, id) with
  | some c => simp [hlk]
  | none => simp [hlk, fsRead_fsSet_ne fs (d, id) p [] h]

/-- C8: on a mutable file set with strictly increasing ids, every
fault-free append returns the index entry of the active file — the one
with the greatest id — whose contents grow by exactly the serialized
record; the tracked `current_file_size` grows by the record's
`total_byte_size`; and a new file with id `max id + 1` is appended to the
set (becoming the active file) precisely when the tracked size exceeds the
1 GiB threshold **and** the actual file length, consulted afterwards, also
exceeds it. -/
theorem c8_append_rollover (fs : FS) (dl : DiskLogFileStorage) (entry : DiskLogEntry)
    (lastf : DiskLogFile)
    (himm : dl.immutable = false)
    (hlast : dl.files.getLast? = some lastf)
    (hmono : idsStrictMono dl.files = true)
    (hpaths : pathsCanonical dl.data_dir dl.files = true) :
    ∃ e, (DiskLogFileStorage.append_log_entry none fs dl entry).2.2 = .ok e
    ∧ e.file_id = lastf.file_id
    ∧ (∀ f ∈ dl.files, f.file_id ≤ lastf.file_id)
    ∧ fsRead (DiskLogFileStorage.append_log_entry none fs dl entry).1 lastf.path
        = fsRead fs lastf.path ++ entry.serializeBytes
    ∧ (DiskLogFileStorage.append_log_entry none fs dl entry).2.1.current_file_size
        = dl.current_file_size + entry.total_byte_size
    ∧ ((dl.current_file_size + entry.total_byte_size > DiskLogFile.MAX_FILE_SIZE
          ∧ (fsRead fs lastf.path ++ entry.serializeBytes).length
              > DiskLogFile.MAX_FILE_SIZE)
        → (DiskLogFileStorage.append_log_entry none fs dl entry).2.1.files
            = dl.files ++ [{ file_id := lastf.file_id + 1,
                             path := (dl.data_dir, lastf.file_id + 1) }])
    ∧ (¬ (dl.current_file_size + entry.total_byte_size > DiskLogFile.MAX_FILE_SIZE
          ∧ (fsRead fs lastf.path ++ entry.serializeBytes).length
              > DiskLogFile.MAX_FILE_SIZE)
        → (DiskLogFileStorage.append_log_entry none fs dl entry).2.1.files
            = dl.files) := by
  have hmax := idsStrictMono_last_max dl.files lastf hmono hlast
  have hlpath : lastf.path = (dl.data_dir, lastf.file_id) := by
    have hmem := mem_of_getLast?_eq dl.files lastf hlast
    unfold pathsCanonical at hpaths
    rw [List.all_eq_true] at hpaths
    have := hpaths lastf hmem
    simpa using this
  have hne : lastf.path ≠ (dl.data_dir, lastf.file_id + 1) := by
    rw [hlpath]
    intro hcontra
    have := congrArg Prod.snd hcontra
    simp at this
  rw [DiskLogFileStorage.append_log_entry_none_eq fs dl entry lastf himm hlast]
  simp only
  refine ⟨{ file_id := lastf.file_id,
            value_offset := (fsRead fs lastf.path).length + entry.value_byte_offset,
            value_size := entry.value_byte_size }, rfl, rfl, hmax, ?_, ?_, ?_, ?_⟩
  · by_cases hroll : dl.current_file_size + entry.total_byte_size
        > DiskLogFile.MAX_FILE_SIZE
      ∧ (fsRead fs lastf.path ++ entry.serializeBytes).length
        > DiskLogFile.MAX_FILE_SIZE
    · rw [if_pos hroll, fsRead_new_ne _ _ _ _ hne, fsRead_fsSet_self]
    · rw [if_neg hroll, fsRead_fsSet_self]
  · by_cases hroll : dl.current_file_size + entry.total_byte_size
        > DiskLogFile.MAX_FILE_SIZE
      ∧ (fsRead fs lastf.path ++ entry.serializeBytes).length
        > DiskLogFile.MAX_FILE_SIZE
    · rw [if_pos hroll]
    · rw [if_neg hroll]
  · intro hroll
    rw [if_pos hroll]
  · intro hroll
    rw [if_neg hroll]

/-- Witness for `c8_append_rollover` at a one-file set whose tracked size
exceeds the threshold (the re-check against the small actual file prevents
the rollover). -/
theorem c8_append_rollover_witness :
    (dlC8.immutable = false
      ∧ dlC8.files.getLast? = some { file_id := 0, path := (0, 0) }
      ∧ idsStrictMono dlC8.files = true
      ∧ pathsCanonical dlC8.data_dir dlC8.files = true)
    ∧ (∃ e, (DiskLogFileStorage.append_log_entry none fs0 dlC8
          (DiskLogEntry.new_entry [1] [2])).2.2 = .ok e
      ∧ e.file_id = ({ file_id := 0, path := (0, 0) } : DiskLogFile).file_id
      ∧ (∀ f ∈ dlC8.files,
          f.file_id ≤ ({ file_id := 0, path := (0, 0) } : DiskLogFile).file_id)
      ∧ fsRead (DiskLogFileStorage.append_log_entry none fs0 dlC8
            (DiskLogEntry.new_entry [1] [2])).1 (0, 0)
          = fsRead fs0 (0, 0) ++ (DiskLogEntry.new_entry [1] [2]).serializeBytes
      ∧ (DiskLogFileStorage.append_log_entry none fs0 dlC8
            (DiskLogEntry.new_entry [1] [2])).2.1.current_file_size
          = dlC8.current_file_size
            + (DiskLogEntry.new_entry [1] [2]).total_byte_size
      ∧ ((dlC8.current_file_size + (DiskLogEntry.new_entry [1] [2]).total_byte_size
              > DiskLogFile.MAX_FILE_SIZE
            ∧ (fsRead fs0 (0, 0)
                ++ (DiskLogEntry.new_entry [1] [2]).serializeBytes).length
              > DiskLogFile.MAX_FILE_SIZE)
          → (DiskLogFileStorage.append_log_entry none fs0 dlC8
              (DiskLogEntry.new_entry [1] [2])).2.1.files
              = dlC8.files ++ [{ file_id := 0 + 1, path := (dlC8.data_dir, 0 + 1) }])
      ∧ (¬ (dlC8.current_file_size
              + (DiskLogEntry.new_entry [1] [2]).total_byte_size
              > DiskLogFile.MAX_FILE_SIZE
            ∧ (fsRead fs0 (0, 0)
                ++ (DiskLogEntry.new_entry [1] [2]).serializeBytes).length
              > DiskLogFile.MAX_FILE_SIZE)
          → (DiskLogFileStorage.append_log_entry none fs0 dlC8
              (DiskLogEntry.new_entry [1] [2])).2.1.files = dlC8.files)) :=
  ⟨⟨by decide, by decide, by decide, by decide⟩,
   c8_append_rollover fs0 dlC8 (DiskLogEntry.new_entry [1] [2])
     { file_id := 0, path := (0, 0) } (by decide) (by decide) (by decide)
     (by decide)⟩

/-! ## Claim C1: the round-trip proof -/

/-- Under the invariant, `LogStorage::get` returns exactly the abstract
map's value. -/
theorem get_correct (fs : FS) (st : LogStorage) (M : Key → Option Value)
    (hinv : EngineInv fs st M) (key : Key) :
    LogStorage.get fs st key = .ok (M key) := by
  unfold LogStorage.get
  cases hidx : st.mem_index.get key with
  | none =>
    have hr := hinv.idx key
    rw [hidx] at hr
    unfold entryRealizes at hr
    rw [hr]
  | some e =>
    have hr := hinv.idx key
    rw [hidx] at hr
    unfold entryRealizes at hr
    obtain ⟨hfid, hval⟩ := hr
    by_cases hts : e.value_size = 0
    · have htomb : e.is_tombstone = true := by
        simp [MemIndexEntry.is_tombstone, hts]
      rw [if_pos hts] at hval
      simp [htomb, hval]
    · have htomb : e.is_tombstone = false := by
        simp [MemIndexEntry.is_tombstone, hts]
      simp only [htomb, Bool.false_eq_true, if_false]
      rw [if_neg hts] at hval
      obtain ⟨v, hMk, hvlen, hbound, hextract⟩ := hval
      have hfile : st.disk_log.files.get? e.file_id
          = some (st.disk_log.files.get ⟨e.file_id, hfid⟩) :=
        List.get?_eq_get hfid
      have hpath : (st.disk_log.files.get ⟨e.file_id, hfid⟩).path
          = (st.disk_log.data_dir, e.file_id) :=
        (hinv.ids e.file_id _ hfile).2
      unfold DiskLogFileStorage.get DiskLogFileStorage.get_file
      rw [hfile]
      simp only [hpath]
      rw [if_pos hbound, hextract, hMk]

/-- Creating a file leaves every other path's lookup unchanged. -/
theorem fsLookup_new_ne (fs : FS) (d id : Nat) (q : FPath) (h : q ≠ (d, id)) :
    fsLookup (DiskLogFile.new fs d id).1 q = fsLookup fs q := by
  unfold DiskLogFile.new
  cases hlk : fsLookup fs (d, id) with
  | some c => simp [hlk]
  | none => simp [hlk, fsLookup_fsSet_ne fs (d, id) q [] h]

/-- Detailed characterization of a fault-free append used by the
round-trip proof: result entry, preserved metadata, and how the
filesystem and the file list change in the no-rollover and rollover
cases. -/
theorem DiskLogFileStorage.append_log_entry_none_full (fs : FS)
    (dl : DiskLogFileStorage) (entry : DiskLogEntry) (lastf : DiskLogFile)
    (himm : dl.immutable = false) (hlast : dl.files.getLast? = some lastf)
    (hlpath : lastf.path = (dl.data_dir, lastf.file_id)) :
    ∃ fs2 dl2,
      DiskLogFileStorage.append_log_entry none fs dl entry
        = (fs2, dl2,
           .ok { file_id := lastf.file_id,
                 value_offset := (fsRead fs lastf.path).length
                   + entry.value_byte_offset,
                 value_size := entry.value_byte_size })
      ∧ dl2.data_dir = dl.data_dir
      ∧ dl2.immutable = false
      ∧ dl2.current_file_size
          = dl.current_file_size + entry.total_byte_size
      ∧ fsRead fs2 lastf.path = fsRead fs lastf.path ++ entry.serializeBytes
      ∧ ((dl2.files = dl.files
            ∧ ∀ q : FPath, q ≠ lastf.path → fsLookup fs2 q = fsLookup fs q)
         ∨ (dl2.files = dl.files
              ++ [{ file_id := lastf.file_id + 1,
                    path := (dl.data_dir, lastf.file_id + 1) }]
            ∧ ∀ q : FPath, q ≠ lastf.path →
                q ≠ (dl.data_dir, lastf.file_id + 1) →
                fsLookup fs2 q = fsLookup fs q)) := by
  have hne : lastf.path ≠ (dl.data_dir, lastf.file_id + 1) := by
    rw [hlpath]
    intro hcontra
    have := congrArg Prod.snd hcontra
    simp at this
  rw [DiskLogFileStorage.append_log_entry_none_eq fs dl entry lastf himm hlast]
  simp only
  by_cases hroll : dl.current_file_size + entry.total_byte_size
      > DiskLogFile.MAX_FILE_SIZE
    ∧ (fsRead fs lastf.path ++ entry.serializeBytes).length
      > DiskLogFile.MAX_FILE_SIZE
  · rw [if_pos hroll, if_pos hroll]
    refine ⟨_, _, rfl, rfl, himm, rfl, ?_, Or.inr ⟨rfl, ?_⟩⟩
    · rw [fsRead_new_ne _ _ _ _ hne, fsRead_fsSet_self]
    · intro q hq1 hq2
      rw [fsLookup_new_ne _ _ _ _ hq2, fsLookup_fsSet_ne _ _ _ _ hq1]
  · rw [if_neg hroll, if_neg hroll]
    refine ⟨_, _, rfl, rfl, himm, rfl, ?_, Or.inl ⟨rfl, ?_⟩⟩
    · rw [fsRead_fsSet_self]
    · intro q hq1
      rw [fsLookup_fsSet_ne _ _ _ _ hq1]

/-- A record ends right after its value payload. -/
theorem DiskLogEntry.total_eq_offset_add_size (e : DiskLogEntry) :
    e.total_byte_size = e.value_byte_offset + e.value_byte_size := by
  unfold DiskLogEntry.total_byte_size DiskLogEntry.value_byte_offset
  ring

/-- Equal lookups give equal reads. -/
theorem fsRead_congr_lookup (fs fs' : FS) (p : FPath)
    (h : fsLookup fs' p = fsLookup fs p) : fsRead fs' p = fsRead fs p := by
  unfold fsRead
  rw [h]

/-- A fault-free unconditional put succeeds and preserves the refinement
invariant, updating the abstract map by `putModel`. -/
theorem put_preserves (fs : FS) (st : LogStorage) (M : Key → Option Value)
    (k : Key) (v : Value) (hinv : EngineInv fs st M) :
    (LogStorage.put none fs st k v none).2.2 = .ok ()
    ∧ EngineInv (LogStorage.put none fs st k v none).1
        (LogStorage.put none fs st k v none).2.1 (putModel M (k, v)) := by
  obtain ⟨lastf, hlast⟩ := exists_getLast? _ hinv.files_ne
  have hnpos : 0 < st.disk_log.files.length := List.length_pos.mpr hinv.files_ne
  have hlastget? : st.disk_log.files.get? (st.disk_log.files.length - 1)
      = some lastf := by
    rw [← List.getLast?_eq_get?]
    exact hlast
  have hlid : lastf.file_id = st.disk_log.files.length - 1 :=
    (hinv.ids _ _ hlastget?).1
  have hlpath : lastf.path = (st.disk_log.data_dir, lastf.file_id) := by
    rw [(hinv.ids _ _ hlastget?).2, hlid]
  obtain ⟨fs2, dl2, heq, hdir, himm2, hsize, hreadlast, hcase⟩ :=
    DiskLogFileStorage.append_log_entry_none_full fs st.disk_log
      (DiskLogEntry.new_entry k v) lastf hinv.imm hlast hlpath
  have hlenle : st.disk_log.files.length ≤ dl2.files.length := by
    rcases hcase with ⟨hf, _⟩ | ⟨hf, _⟩ <;> simp [hf]
  have hput : LogStorage.put none fs st k v none
      = (fs2,
         { st with
           disk_log := dl2
           mem_index := st.mem_index.put k
             { file_id := lastf.file_id,
               value_offset := (fsRead fs lastf.path).length
                 + (DiskLogEntry.new_entry k v).value_byte_offset,
               value_size := (DiskLogEntry.new_entry k v).value_byte_size } },
         .ok ()) := by
    show LogStorage.put_without_option none fs st k v = _
    unfold LogStorage.put_without_option DiskLogFileStorage.put
    rw [heq]
  rw [hput]
  refine ⟨rfl, ?_⟩
  constructor
  -- files_ne
  · rcases hcase with ⟨hf, _⟩ | ⟨hf, _⟩
    · simp only [hf]
      exact hinv.files_ne
    · simp only [hf]
      intro hcontra
      exact absurd (List.append_eq_nil.mp hcontra).1 hinv.files_ne
  -- imm
  · exact himm2
  -- ids
  · intro i f hget
    rw [hdir]
    rcases hcase with ⟨hf, _⟩ | ⟨hf, _⟩
    · rw [hf] at hget
      exact hinv.ids i f hget
    · rw [hf] at hget
      by_cases hi : i < st.disk_log.files.length
      · rw [List.get?_append hi] at hget
        exact hinv.ids i f hget
      · have hlen : i < st.disk_log.files.length + 1 := by
          have hb := List.get?_eq_some.mp hget
          obtain ⟨hbound, _⟩ := hb
          simpa using hbound
        have hieq : i = st.disk_log.files.length := by omega
        subst hieq
        have hgot : (st.disk_log.files
            ++ [({ file_id := lastf.file_id + 1,
                   path := (st.disk_log.data_dir, lastf.file_id + 1) }
                 : DiskLogFile)]).get? st.disk_log.files.length
            = some ({ file_id := lastf.file_id + 1,
                      path := (st.disk_log.data_dir, lastf.file_id + 1) }
                    : DiskLogFile) := by
          rw [List.get?_append_right (le_refl _)]
          simp
        rw [hgot] at hget
        injection hget with hget
        rw [← hget]
        refine ⟨?_, ?_⟩
        · show lastf.file_id + 1 = st.disk_log.files.length
          omega
        · show (st.disk_log.data_dir, lastf.file_id + 1)
            = (st.disk_log.data_dir, st.disk_log.files.length)
          have : lastf.file_id + 1 = st.disk_log.files.length := by omega
          rw [this]
  -- future
  · intro j hj
    rw [hdir]
    have hjn : st.disk_log.files.length ≤ j := le_trans hlenle hj
    have hfut := hinv.future j hjn
    have hq1 : ((st.disk_log.data_dir, j) : FPath) ≠ lastf.path := by
      rw [hlpath]
      intro hcontra
      have hsnd := congrArg Prod.snd hcontra
      simp only at hsnd
      omega
    rcases hcase with ⟨hf, hlk⟩ | ⟨hf, hlk⟩
    · rw [hlk _ hq1]
      exact hfut
    · have hq2 : ((st.disk_log.data_dir, j) : FPath)
          ≠ (st.disk_log.data_dir, lastf.file_id + 1) := by
        intro hcontra
        have hsnd := congrArg Prod.snd hcontra
        simp only at hsnd
        rw [hf] at hj
        simp only [List.length_append, List.length_cons, List.length_nil] at hj
        omega
      rw [hlk _ hq1 hq2]
      exact hfut
  -- idx
  · intro k'
    by_cases hk : k' = k
    · subst hk
      show entryRealizes fs2 dl2
        ((st.mem_index.put k' _).get k') (putModel M (k', v) k')
      rw [MemIndexStorage.get_put_self]
      unfold entryRealizes
      refine ⟨?_, ?_⟩
      · show lastf.file_id < dl2.files.length
        omega
      · show (if (DiskLogEntry.new_entry k' v).value_byte_size = 0 then _ else _)
        by_cases hv0 : (DiskLogEntry.new_entry k' v).value_byte_size = 0
        · rw [if_pos hv0]
          have hvnil : v = [] := by
            have hl : v.length = 0 := hv0
            exact List.length_eq_zero.mp hl
          simp [putModel, hvnil]
        · rw [if_neg hv0]
          have hvne : v.isEmpty = false := by
            cases v with
            | nil => exact absurd rfl hv0
            | cons a as => rfl
          refine ⟨v, ?_, rfl, ?_, ?_⟩
          · simp [putModel, hvne]
          · show (fsRead fs lastf.path).length
                + (DiskLogEntry.new_entry k' v).value_byte_offset
                + (DiskLogEntry.new_entry k' v).value_byte_size
              ≤ (fsRead fs2 (dl2.data_dir, lastf.file_id)).length
            rw [hdir, ← hlpath, hreadlast, List.length_append,
              DiskLogEntry.serializeBytes_length,
              DiskLogEntry.total_eq_offset_add_size]
            omega
          · show ((fsRead fs2 (dl2.data_dir, lastf.file_id)).drop
                ((fsRead fs lastf.path).length
                  + (DiskLogEntry.new_entry k' v).value_byte_offset)).take
                (DiskLogEntry.new_entry k' v).value_byte_size
              = v
            rw [hdir, ← hlpath, hreadlast, List.drop_append]
            exact DiskLogEntry.value_at_offset _ v rfl
    · show entryRealizes fs2 dl2
        ((st.mem_index.put k _).get k') (putModel M (k, v) k')
      rw [MemIndexStorage.get_put_ne _ _ _ _ hk]
      have hM' : putModel M (k, v) k' = M k' := by simp [putModel, hk]
      rw [hM']
      have hr := hinv.idx k'
      unfold entryRealizes at hr ⊢
      cases hoe : st.mem_index.get k' with
      | none =>
        rw [hoe] at hr
        exact hr
      | some e' =>
        rw [hoe] at hr
        obtain ⟨hfid, hval⟩ := hr
        refine ⟨lt_of_lt_of_le hfid hlenle, ?_⟩
        rw [hdir]
        by_cases hts : e'.value_size = 0
        · rw [if_pos hts] at hval ⊢
          exact hval
        · rw [if_neg hts] at hval ⊢
          obtain ⟨w, hMk, hwlen, hbound, hextract⟩ := hval
          by_cases hfl : e'.file_id = lastf.file_id
          · have hpath' : ((st.disk_log.data_dir, e'.file_id) : FPath)
                = lastf.path := by
              rw [hlpath, hfl]
            rw [hpath'] at hbound hextract ⊢
            rw [hreadlast]
            refine ⟨w, hMk, hwlen, ?_, ?_⟩
            · rw [List.length_append]
              omega
            · rw [extract_append_of_le _ _ _ _ hbound]
              exact hextract
          · have hq1 : ((st.disk_log.data_dir, e'.file_id) : FPath)
                ≠ lastf.path := by
              rw [hlpath]
              intro hcontra
              have hsnd := congrArg Prod.snd hcontra
              simp only at hsnd
              exact hfl hsnd
            have hq2 : ((st.disk_log.data_dir, e'.file_id) : FPath)
                ≠ (st.disk_log.data_dir, lastf.file_id + 1) := by
              intro hcontra
              have hsnd := congrArg Prod.snd hcontra
              simp only at hsnd
              omega
            have hreadeq : fsRead fs2 (st.disk_log.data_dir, e'.file_id)
                = fsRead fs (st.disk_log.data_dir, e'.file_id) := by
              rcases hcase with ⟨_, hlk⟩ | ⟨_, hlk⟩
              · exact fsRead_congr_lookup _ _ _ (hlk _ hq1)
              · exact fsRead_congr_lookup _ _ _ (hlk _ hq1 hq2)
            rw [hreadeq]
            exact ⟨w, hMk, hwlen, hbound, hextract⟩

/-- The invariant is preserved along any sequence of puts. -/
theorem runPuts_inv (ps : List (Key × Value)) : ∀ (fs : FS) (st : LogStorage)
    (M : Key → Option Value), EngineInv fs st M →
    EngineInv (runPuts fs st ps).1 (runPuts fs st ps).2 (modelOfPuts ps M) := by
  induction ps with
  | nil => intro fs st M h; exact h
  | cons p rest ih =>
    intro fs st M h
    obtain ⟨k, v⟩ := p
    have hp := put_preserves fs st M k v h
    exact ih _ _ _ hp.2

/-- Puts of other keys do not change the abstract value of `k`. -/
theorem modelOfPuts_not_mem (ps : List (Key × Value)) : ∀ (M : Key → Option Value)
    (k : Key), (∀ p ∈ ps, p.1 ≠ k) → modelOfPuts ps M k = M k := by
  induction ps with
  | nil => intro M k _; rfl
  | cons p rest ih =>
    intro M k h
    show modelOfPuts rest (putModel M p) k = M k
    rw [ih _ k (fun q hq => h q (List.mem_cons_of_mem p hq))]
    have hne : p.1 ≠ k := h p (List.mem_cons_self p rest)
    simp only [putModel]
    rw [if_neg (fun hc => hne hc.symm)]

/-- With pairwise distinct keys, the abstract map after the puts sends
each written key with nonempty value to its value. -/
theorem modelOfPuts_mem (ps : List (Key × Value)) : ∀ (M : Key → Option Value)
    (k : Key) (v : Value), (k, v) ∈ ps → distinctKeys ps = true →
    v.isEmpty = false → modelOfPuts ps M k = some v := by
  induction ps with
  | nil => intro M k v h _ _; simp at h
  | cons p rest ih =>
    intro M k v hmem hdist hvne
    rw [distinctKeys] at hdist
    simp only [Bool.and_eq_true] at hdist
    obtain ⟨hhead, htail⟩ := hdist
    rcases List.mem_cons.mp hmem with hp | hrest
    · have hk1 : p.1 = k := by rw [← hp]
      have hk2 : p.2 = v := by rw [← hp]
      show modelOfPuts rest (putModel M p) k = some v
      have hnone : ∀ q ∈ rest, q.1 ≠ k := by
        intro q hq
        have := (List.all_eq_true.mp hhead) q hq
        simp at this
        rw [← hk1]
        exact this
      rw [modelOfPuts_not_mem rest _ k hnone]
      simp only [putModel]
      rw [if_pos hk1.symm, hk2]
      rw [hvne]
      simp
    · exact ih _ k v hrest htail hvne

/-- The invariant holds for the fresh engine, with the empty abstract
map. -/
theorem inv_init : EngineInv fs0 st0 (fun _ => none) := by
  constructor
  · simp [st0]
  · rfl
  · intro i f hget
    cases i with
    | zero =>
      simp [st0] at hget
      rw [← hget]
      exact ⟨rfl, rfl⟩
    | succ n =>
      simp [st0] at hget
  · intro j hj
    simp only [st0] at hj
    simp only [List.length_cons, List.length_nil] at hj
    show fsLookup fs0 (0, j) = none
    unfold fs0 fsLookup
    rw [if_neg ?_]
    · rfl
    · intro hcontra
      have hsnd := congrArg Prod.snd hcontra
      simp only at hsnd
      omega
  · intro k
    show entryRealizes fs0 st0.disk_log (MemIndexStorage.get [] k) none
    unfold MemIndexStorage.get entryRealizes
    rfl

/-- C1 as amended: starting from the fresh engine, for every sequence of
puts with pairwise distinct keys and **nonempty** values, a subsequent get
of each written key returns its value.  (A put of the empty value makes
the following get return absent instead.) -/
theorem c1_roundtrip_nonempty (ps : List (Key × Value)) (k : Key) (v : Value)
    (hdist : distinctKeys ps = true)
    (hvals : valuesNonempty ps = true)
    (hmem : (k, v) ∈ ps) :
    LogStorage.get (runPuts fs0 st0 ps).1 (runPuts fs0 st0 ps).2 k
      = .ok (some v) := by
  have hinv := runPuts_inv ps fs0 st0 (fun _ => none) inv_init
  rw [get_correct _ _ _ hinv k]
  have hvne : v.isEmpty = false := by
    have := (List.all_eq_true.mp hvals) (k, v) hmem
    simpa using this
  rw [modelOfPuts_mem ps _ k v hmem hdist hvne]

/-- Witness for `c1_roundtrip_nonempty` at the two-put sequence
`[([97], [49]), ([98], [50])]` and the first pair. -/
theorem c1_roundtrip_nonempty_witness :
    (distinctKeys [([97], [49]), ([98], [50])] = true
      ∧ valuesNonempty [([97], [49]), ([98], [50])] = true
      ∧ (([97], [49]) : Key × Value) ∈ [([97], [49]), ([98], [50])])
    ∧ LogStorage.get (runPuts fs0 st0 [([97], [49]), ([98], [50])]).1
        (runPuts fs0 st0 [([97], [49]), ([98], [50])]).2 [97]
        = .ok (some [49]) :=
  ⟨⟨by decide, by decide, by decide⟩,
   c1_roundtrip_nonempty [([97], [49]), ([98], [50])] [97] [49]
     (by decide) (by decide) (by decide)⟩
